import Mathlib

set_option maxHeartbeats 1000000

namespace Urho3D

/-!
Shallow embedding of `Source/Engine/Graphics/Shader.cpp` (Urho3D, 2008-2014).

Modelling conventions:
* a C++ `String` is modelled as `List Char`;
* the index-based loops of `Shader::SanitateDefines` are modelled by structural
  recursions that compute the same indices the loops compute (the backward scan,
  whose unsigned counter terminates by wraparound below index 0, is modelled by
  `findEndAux`, which returns the index of the last non-space character, the
  value at which that loop breaks, and `none` when the loop runs to wraparound);
* container/`String` methods and path helpers that the file uses but whose code
  is outside this translation unit (`Replace`, `Trimmed`, `GetPath`,
  `SplitPath`, the content hash of `StringHash`) are modelled from the spec,
  each marked as such in its doc comment.
-/

/-- Forward trim scan of `Shader::SanitateDefines` (Shader.cpp:199-206):
index of the first non-space character, `none` when every character is a
space (in which case the C++ loop never breaks and `start` keeps its
initial value `0`). -/
def findStartAux : List Char → Option Nat
  | [] => none
  | c :: rest => if c = ' ' then (findStartAux rest).map (· + 1) else some 0

/-- The `start` index computed by `Shader::SanitateDefines` (initial value 0). -/
def findStart (s : List Char) : Nat := (findStartAux s).getD 0

/-- Backward trim scan of `Shader::SanitateDefines` (Shader.cpp:207-214):
index of the last non-space character, `none` when the loop terminates by
unsigned wraparound without breaking (all-space or empty input). -/
def findEndAux : List Char → Option Nat
  | [] => none
  | c :: rest =>
    match findEndAux rest with
    | some j => some (j + 1)
    | none => if c = ' ' then none else some 0

/-- The `end` index computed by `Shader::SanitateDefines`: one past the last
non-space character, or its initial value `definesIn.Length()` when the
backward loop finds no non-space character. -/
def findEnd (s : List Char) : Nat :=
  match findEndAux s with
  | some j => j + 1
  | none => s.length

/-- Copy loop of `Shader::SanitateDefines` (Shader.cpp:215-225): walk the
characters, keeping a running count of consecutive spaces, and append a
character only while that count is at most 1.  When the character is not a
space the counter resets to 0 and the `numSpaces <= 1` test of the source is
trivially true, so that branch always appends. -/
def collapse : Nat → List Char → List Char
  | _, [] => []
  | numSpaces, c :: rest =>
    if c = ' ' then
      if numSpaces + 1 ≤ 1 then c :: collapse (numSpaces + 1) rest
      else collapse (numSpaces + 1) rest
    else c :: collapse 0 rest

/-- `Shader::SanitateDefines` (Shader.cpp:190-228): run the copy loop over the
index range `[start, end)` of the input. -/
def sanitateDefines (definesIn : List Char) : List Char :=
  collapse 0 ((definesIn.take (findEnd definesIn)).drop (findStart definesIn))

/-- Companion definition following the claim's words: drop the leading and the
trailing spaces of a string (used to state what the trim scans achieve). -/
def trimEnds (s : List Char) : List Char :=
  ((s.dropWhile (· = ' ')).reverse.dropWhile (· = ' ')).reverse

/-- Companion definition following the claim's words: collapse every run of two
or more consecutive spaces to exactly one space. -/
def collapseRuns : List Char → List Char
  | [] => []
  | c :: rest =>
    if c = ' ' then ' ' :: collapseRuns (rest.dropWhile (· = ' '))
    else c :: collapseRuns rest
termination_by s => s.length
decreasing_by
  · simpa using Nat.lt_succ_of_le (List.dropWhile_sublist (p := (· = ' '))).length_le
  · simp

example : sanitateDefines "  A   B  ".toList = "A B".toList := by decide
example : sanitateDefines "   ".toList = [' '] := by decide
example : sanitateDefines "".toList = [] := by decide
example : sanitateDefines " ".toList = [' '] := by decide
example : sanitateDefines "FOO BAR".toList = sanitateDefines " FOO   BAR ".toList := by decide

/-- No two consecutive spaces occur in the list. -/
def NoDouble (l : List Char) : Prop :=
  l.Chain' (fun a b => ¬(a = ' ' ∧ b = ' '))

theorem findStartAux_eq_none_iff (s : List Char) :
    findStartAux s = none ↔ ∀ c ∈ s, c = ' ' := by
  induction s with
  | nil => simp [findStartAux]
  | cons c rest ih =>
    by_cases hc : c = ' ' <;> simp [findStartAux, hc, ih, Option.map_eq_none']

theorem findEndAux_eq_none_iff (s : List Char) :
    findEndAux s = none ↔ ∀ c ∈ s, c = ' ' := by
  induction s with
  | nil => simp [findEndAux]
  | cons c rest ih =>
    by_cases hc : c = ' ' <;>
      cases h : findEndAux rest <;>
        simp_all [findEndAux] <;> exact ih

theorem findEndAux_lt_length {s : List Char} {j : Nat} (h : findEndAux s = some j) :
    j < s.length := by
  induction s generalizing j with
  | nil => simp [findEndAux] at h
  | cons c rest ih =>
    simp only [findEndAux] at h
    cases h' : findEndAux rest with
    | some j' =>
      rw [h'] at h
      have := ih h'
      simp_all
      omega
    | none =>
      rw [h'] at h
      by_cases hc : c = ' ' <;> simp [hc] at h
      simp [← h]

theorem findStart_le_findEnd_aux {s : List Char} {k j : Nat}
    (hk : findStartAux s = some k) (hj : findEndAux s = some j) : k ≤ j := by
  induction s generalizing k j with
  | nil => simp [findStartAux] at hk
  | cons c rest ih =>
    by_cases hc : c = ' '
    · simp only [findStartAux, hc, if_pos rfl] at hk
      simp only [findEndAux] at hj
      cases hk' : findStartAux rest with
      | none => simp [hk'] at hk
      | some k' =>
        rw [hk'] at hk
        simp at hk
        cases hj' : findEndAux rest with
        | none =>
          -- all of rest is spaces, so findStartAux rest = none, contradiction
          rw [(findStartAux_eq_none_iff rest).2 ((findEndAux_eq_none_iff rest).1 hj')] at hk'
          exact absurd hk' (by simp)
        | some j' =>
          rw [hj'] at hj
          simp at hj
          have := ih hk' hj'
          omega
    · simp only [findStartAux, hc, if_neg hc] at hk
      simp at hk
      omega

theorem collapse_pos (r : List Char) :
    ∀ n m, 0 < n → 0 < m → collapse n r = collapse m r := by
  induction r with
  | nil => intro n m _ _; rfl
  | cons c rest ih =>
    intro n m hn hm
    by_cases hc : c = ' '
    · have h1 : ¬(n + 1 ≤ 1) := by omega
      have h2 : ¬(m + 1 ≤ 1) := by omega
      simp only [collapse, hc, if_pos rfl, h1, h2, if_false]
      exact ih _ _ (by omega) (by omega)
    · simp only [collapse, hc, if_neg hc]
      simp

theorem collapse_one_eq (rest : List Char) :
    collapse 1 rest = collapse 0 (rest.dropWhile (· = ' ')) := by
  induction rest with
  | nil => rfl
  | cons c r2 ih =>
    by_cases hc : c = ' '
    · have h1 : ¬(1 + 1 ≤ 1) := by omega
      simp only [collapse, hc, if_pos rfl, h1, if_false, List.dropWhile_cons,
        decide_eq_true_eq, if_pos rfl]
      rw [collapse_pos r2 2 1 (by omega) (by omega)]
      exact ih
    · simp only [collapse, hc, if_neg hc, List.dropWhile_cons]
      simp [hc, collapse, hc]

theorem collapse_zero_eq_collapseRuns_aux :
    ∀ (n : Nat) (s : List Char), s.length ≤ n → collapse 0 s = collapseRuns s := by
  intro n
  induction n with
  | zero =>
    intro s hs
    rw [List.length_eq_zero.1 (Nat.le_zero.1 hs)]
    simp [collapse, collapseRuns]
  | succ n ih =>
    intro s hs
    cases s with
    | nil => simp [collapse, collapseRuns]
    | cons c rest =>
      by_cases hc : c = ' '
      · have hlen : (rest.dropWhile (· = ' ')).length ≤ n := by
          have := (List.dropWhile_sublist (p := (· = ' ')) (l := rest)).length_le
          simp at hs
          omega
        simp only [collapse, hc, if_pos rfl, collapseRuns, Nat.zero_add,
          if_pos (by omega : 0 + 1 ≤ 1), collapse_one_eq, ih _ hlen]
        simp
      · have hlen : rest.length ≤ n := by simp at hs; omega
        simp only [collapse, hc, if_neg hc, collapseRuns, ih _ hlen]
        simp [hc]

/-- The copy loop of `SanitateDefines`, started with space counter `0`, computes
exactly the run-collapsing function the claim describes. -/
theorem collapse_zero_eq_collapseRuns (s : List Char) :
    collapse 0 s = collapseRuns s :=
  collapse_zero_eq_collapseRuns_aux s.length s le_rfl

theorem collapse_head_ne_space (u : List Char) :
    ∀ n, 1 ≤ n → (collapse n u).head? ≠ some ' ' := by
  induction u with
  | nil => intro n _; simp [collapse]
  | cons c rest ih =>
    intro n hn
    by_cases hc : c = ' '
    · have h1 : ¬(n + 1 ≤ 1) := by omega
      simp only [collapse, hc, if_pos rfl, h1, if_false]
      exact ih _ (by omega)
    · simp only [collapse, hc, if_neg hc]
      simp [hc]

theorem collapse_noDouble (u : List Char) : ∀ n, NoDouble (collapse n u) := by
  induction u with
  | nil => intro n; simp [collapse, NoDouble]
  | cons c rest ih =>
    intro n
    by_cases hc : c = ' '
    · by_cases hn : n + 1 ≤ 1
      · simp only [collapse, hc, if_pos rfl, if_pos hn, NoDouble]
        simp only [if_true]
        rw [List.chain'_cons']
        refine ⟨?_, ih (n + 1)⟩
        intro b hb
        have := collapse_head_ne_space rest (n + 1) (by omega)
        intro hab
        exact this (by rw [hb]; exact congrArg some hab.2)
      · simp only [collapse, hc, if_pos rfl, if_neg hn]
        exact ih (n + 1)
    · simp only [collapse, hc, if_neg hc, NoDouble]
      simp only [if_false]
      rw [List.chain'_cons']
      refine ⟨?_, ih 0⟩
      intro b hb hab
      exact hc hab.1

theorem collapse_eq_self (u : List Char) :
    ∀ n, NoDouble u → (u.head? ≠ some ' ' ∨ n = 0) → collapse n u = u := by
  induction u with
  | nil => intro n _ _; rfl
  | cons c rest ih =>
    intro n hnd hh
    by_cases hc : c = ' '
    · have hn : n = 0 := by
        rcases hh with hh | hh
        · exact absurd (show (c :: rest).head? = some ' ' by rw [List.head?_cons, hc]) hh
        · exact hh
      subst hn
      simp only [collapse, hc, if_pos rfl, if_pos (by omega : 0 + 1 ≤ 1)]
      have hrest : NoDouble rest := (List.chain'_cons'.1 hnd).2
      have hhead : rest.head? ≠ some ' ' := by
        intro hb
        cases rest with
        | nil => simp at hb
        | cons d r2 =>
          simp at hb
          exact (List.chain'_cons'.1 hnd).1 d (by simp) ⟨hc, hb⟩
      rw [ih 1 hrest (Or.inl hhead)]
      simp
    · simp only [collapse, hc, if_neg hc]
      rw [ih 0 (List.chain'_cons'.1 hnd).2 (Or.inr rfl)]
      simp

theorem collapse_getLast? (u : List Char) :
    ∀ n c, u.getLast? = some c → c ≠ ' ' → (collapse n u).getLast? = some c := by
  induction u with
  | nil => intro n c h _; simp at h
  | cons a rest ih =>
    intro n c h hc
    cases hr : rest with
    | nil =>
      subst hr
      simp at h
      subst h
      simp only [collapse]
      rw [if_neg hc]
      simp [collapse]
    | cons b r2 =>
      rw [hr] at h
      have h' : rest.getLast? = some c := by rw [hr]; simpa using h
      rw [← hr]
      by_cases ha : a = ' '
      · by_cases hn : n + 1 ≤ 1
        · simp only [collapse, ha, if_pos rfl, if_pos hn]
          have htail := ih (n + 1) c h' hc
          have hne : collapse (n + 1) rest ≠ [] := by
            intro hnil
            rw [hnil] at htail
            simp at htail
          cases hcc : collapse (n + 1) rest with
          | nil => exact absurd hcc hne
          | cons x xs =>
            rw [hcc] at htail
            simp only [if_true]
            rw [List.getLast?_cons_cons]
            exact htail
        · simp only [collapse, ha, if_pos rfl, if_neg hn]
          exact ih (n + 1) c h' hc
      · simp only [collapse, ha, if_neg ha]
        have htail := ih 0 c h' hc
        have hne : collapse 0 rest ≠ [] := by
          intro hnil
          rw [hnil] at htail
          simp at htail
        cases hcc : collapse 0 rest with
        | nil => exact absurd hcc hne
        | cons x xs =>
          rw [hcc] at htail
          simp only [if_false]
          rw [List.getLast?_cons_cons]
          exact htail

theorem collapse_all_space_pos (s : List Char) :
    ∀ n, 1 ≤ n → (∀ c ∈ s, c = ' ') → collapse n s = [] := by
  induction s with
  | nil => intro n _ _; rfl
  | cons c rest ih =>
    intro n hn hall
    have hc : c = ' ' := hall c (by simp)
    simp only [collapse, hc, if_pos rfl, if_neg (by omega : ¬(n + 1 ≤ 1))]
    exact ih (n + 1) (by omega) (fun x hx => hall x (by simp [hx]))

theorem collapse_all_space_zero (s : List Char) (hne : s ≠ [])
    (hall : ∀ c ∈ s, c = ' ') : collapse 0 s = [' '] := by
  cases s with
  | nil => exact absurd rfl hne
  | cons c rest =>
    have hc : c = ' ' := hall c (by simp)
    simp only [collapse, hc, if_pos rfl, if_pos (by omega : 0 + 1 ≤ 1)]
    rw [collapse_all_space_pos rest 1 le_rfl (fun x hx => hall x (by simp [hx]))]
    simp

theorem drop_findStart {s : List Char} {k : Nat} (h : findStartAux s = some k) :
    s.drop k = s.dropWhile (· = ' ') := by
  induction s generalizing k with
  | nil => simp [findStartAux] at h
  | cons c rest ih =>
    by_cases hc : c = ' '
    · simp only [findStartAux, hc, if_pos rfl] at h
      cases h' : findStartAux rest with
      | none => rw [h'] at h; simp at h
      | some k' =>
        rw [h'] at h
        simp at h
        subst h
        simp [List.dropWhile_cons, hc, ih h']
    · simp only [findStartAux, hc, if_neg hc] at h
      simp at h
      subst h
      simp [List.dropWhile_cons, hc]

theorem take_findEnd {s : List Char} {j : Nat} (h : findEndAux s = some j) :
    s.take (j + 1) = (s.reverse.dropWhile (· = ' ')).reverse := by
  induction s generalizing j with
  | nil => simp [findEndAux] at h
  | cons c rest ih =>
    simp only [findEndAux] at h
    cases h' : findEndAux rest with
    | some j' =>
      rw [h'] at h
      simp at h
      subst h
      have hne : rest.reverse.dropWhile (· = ' ') ≠ [] := by
        rw [Ne, List.dropWhile_eq_nil_iff]
        intro hall
        have hnone : findEndAux rest = none := (findEndAux_eq_none_iff rest).2 (by
          intro x hx
          simpa using hall x (by simpa using hx))
        rw [hnone] at h'
        cases h'
      rw [List.reverse_cons, List.dropWhile_append,
        if_neg (by simpa [List.isEmpty_iff] using hne), List.reverse_append]
      simp [ih h']
    | none =>
      rw [h'] at h
      by_cases hc : c = ' '
      · simp [hc] at h
      · simp [hc] at h
        subst h
        have hall : ∀ x ∈ rest.reverse, decide (x = ' ') = true := by
          intro x hx
          simpa using (findEndAux_eq_none_iff rest).1 h' x (by simpa using hx)
        rw [List.reverse_cons, List.dropWhile_append,
          if_pos (by
            simp only [List.isEmpty_iff, List.dropWhile_eq_nil_iff]
            intro x hx
            exact hall x hx)]
        simp [List.dropWhile_cons, hc]

theorem findEndAux_drop {s : List Char} {k j : Nat}
    (hk : findStartAux s = some k) (hj : findEndAux s = some j) :
    findEndAux (s.drop k) = some (j - k) := by
  induction s generalizing k j with
  | nil => simp [findStartAux] at hk
  | cons c rest ih =>
    by_cases hc : c = ' '
    · simp only [findStartAux, hc, if_pos rfl] at hk
      cases hk' : findStartAux rest with
      | none => rw [hk'] at hk; simp at hk
      | some k' =>
        rw [hk'] at hk
        simp at hk
        subst hk
        simp only [findEndAux] at hj
        cases hj' : findEndAux rest with
        | none =>
          rw [hj'] at hj
          simp [hc] at hj
        | some j' =>
          rw [hj'] at hj
          simp at hj
          subst hj
          rw [List.drop_succ_cons]
          simpa using ih hk' hj'
    · simp only [findStartAux, hc, if_neg hc] at hk
      simp at hk
      subst hk
      simpa using hj

/-- Characterization of `SanitateDefines`: the empty string maps to itself, a
nonempty all-space string maps to a single space (the trim scans keep their
initialization values `0` and `length`, so the copy loop sees the whole string
and keeps its first space), and any other string is trimmed at both ends and
has its interior space runs collapsed. -/
theorem sanitateDefines_characterization (s : List Char) :
    sanitateDefines s =
      if s ≠ [] ∧ ∀ c ∈ s, c = ' ' then [' '] else collapseRuns (trimEnds s) := by
  by_cases hall : ∀ c ∈ s, c = ' '
  · cases hs : s with
    | nil =>
      subst hs
      simp [sanitateDefines, trimEnds, collapse, collapseRuns, findStart, findEnd,
        findStartAux, findEndAux]
    | cons c rest =>
      rw [← hs]
      rw [if_pos ⟨by simp [hs], hall⟩]
      have h1 : findStartAux s = none := (findStartAux_eq_none_iff s).2 hall
      have h2 : findEndAux s = none := (findEndAux_eq_none_iff s).2 hall
      simp only [sanitateDefines, findStart, findEnd, h1, h2, Option.getD_none,
        List.drop_zero, List.take_length]
      exact collapse_all_space_zero s (by simp [hs]) hall
  · rw [if_neg (by simp [hall])]
    cases hk : findStartAux s with
    | none => exact absurd ((findStartAux_eq_none_iff s).1 hk) hall
    | some k =>
      cases hj : findEndAux s with
      | none => exact absurd ((findEndAux_eq_none_iff s).1 hj) hall
      | some j =>
        have hkj : k ≤ j := findStart_le_findEnd_aux hk hj
        simp only [sanitateDefines, findStart, findEnd, hk, hj, Option.getD_some]
        rw [List.drop_take (j + 1) k s]
        have harith : j + 1 - k = (j - k) + 1 := by omega
        rw [harith]
        have hdrop := drop_findStart hk
        have hend : findEndAux (s.drop k) = some (j - k) := findEndAux_drop hk hj
        rw [hdrop] at hend
        rw [hdrop, take_findEnd hend]
        rw [collapse_zero_eq_collapseRuns]
        rfl

theorem dropWhile_eq_self_of_head {u : List Char} (h : u.head? ≠ some ' ') :
    u.dropWhile (· = ' ') = u := by
  cases u with
  | nil => rfl
  | cons c rest =>
    simp at h
    simp [List.dropWhile_cons, h]

theorem head?_dropWhile_ne (p : Char → Bool) (l : List Char) {a : Char}
    (h : (l.dropWhile p).head? = some a) : p a = false := by
  induction l with
  | nil => simp [List.dropWhile] at h
  | cons c r ih =>
    rw [List.dropWhile_cons] at h
    by_cases hc : p c
    · rw [if_pos hc] at h
      exact ih h
    · rw [if_neg hc] at h
      simp at h
      subst h
      simpa using hc

theorem dropWhile_ne_nil_of_not_all {s : List Char} (hall : ¬ ∀ c ∈ s, c = ' ') :
    s.dropWhile (· = ' ') ≠ [] := by
  rw [Ne, List.dropWhile_eq_nil_iff]
  intro hcon
  exact hall fun c hc => by simpa using hcon c hc

theorem inner_dropWhile_ne_nil {s : List Char} (hall : ¬ ∀ c ∈ s, c = ' ') :
    (s.dropWhile (· = ' ')).reverse.dropWhile (· = ' ') ≠ [] := by
  have htne := dropWhile_ne_nil_of_not_all hall
  rw [Ne, List.dropWhile_eq_nil_iff]
  intro hcon
  cases ht : s.dropWhile (· = ' ') with
  | nil => exact htne ht
  | cons c r =>
    have hc : c = ' ' := by simpa using hcon c (by simp [ht])
    have : decide (c = ' ') = false :=
      head?_dropWhile_ne _ s (by rw [ht]; rfl)
    simp [hc] at this

theorem trimEnds_head {s : List Char} (hall : ¬ ∀ c ∈ s, c = ' ') :
    (trimEnds s).head? ≠ some ' ' := by
  have htne := dropWhile_ne_nil_of_not_all hall
  have hu := inner_dropWhile_ne_nil hall
  show ((((s.dropWhile (· = ' ')).reverse).dropWhile (· = ' ')).reverse).head? ≠ some ' '
  rw [List.head?_reverse]
  have hsplit := List.takeWhile_append_dropWhile (p := (· = ' '))
    (l := (s.dropWhile (· = ' ')).reverse)
  have heq : (((s.dropWhile (· = ' ')).reverse).dropWhile (· = ' ')).getLast? =
      ((s.dropWhile (· = ' ')).reverse).getLast? := by
    conv_rhs => rw [← hsplit]
    rw [List.getLast?_append_of_ne_nil _ hu]
  rw [heq, List.getLast?_reverse]
  intro hcon
  have := head?_dropWhile_ne _ s hcon
  simp at this

theorem trimEnds_getLast {s : List Char} (hall : ¬ ∀ c ∈ s, c = ' ') :
    ∃ c, (trimEnds s).getLast? = some c ∧ c ≠ ' ' := by
  have hu := inner_dropWhile_ne_nil hall
  cases hug : ((s.dropWhile (· = ' ')).reverse).dropWhile (· = ' ') with
  | nil => exact absurd hug hu
  | cons c r =>
    refine ⟨c, ?_, ?_⟩
    · show ((((s.dropWhile (· = ' ')).reverse).dropWhile (· = ' ')).reverse).getLast? = some c
      rw [List.getLast?_reverse, hug]
      rfl
    · have : decide (c = ' ') = false :=
        head?_dropWhile_ne _ (s.dropWhile (· = ' ')).reverse (by rw [hug]; rfl)
      simpa using this

theorem collapse_zero_head? {u : List Char} (h : u.head? ≠ some ' ') :
    (collapse 0 u).head? = u.head? := by
  cases u with
  | nil => rfl
  | cons c rest =>
    simp at h
    simp [collapse, h]

theorem collapse_length_le (u : List Char) : ∀ n, (collapse n u).length ≤ u.length := by
  induction u with
  | nil => intro n; simp [collapse]
  | cons c rest ih =>
    intro n
    by_cases hc : c = ' '
    · by_cases hn : n + 1 ≤ 1
      · simp only [collapse, hc, if_pos rfl, if_pos hn]
        simpa using ih (n + 1)
      · simp only [collapse, hc, if_pos rfl, if_neg hn]
        calc (collapse (n + 1) rest).length ≤ rest.length := ih (n + 1)
          _ ≤ (c :: rest).length := by simp
    · simp only [collapse, hc, if_neg hc]
      simpa using ih 0

/-- C3: `SanitateDefines` is idempotent: sanitizing an already-sanitized define
string returns it unchanged, for every input string. -/
theorem sanitateDefines_idempotent (s : List Char) :
    sanitateDefines (sanitateDefines s) = sanitateDefines s := by
  by_cases hall : ∀ c ∈ s, c = ' '
  · cases hs : s with
    | nil => subst hs; rfl
    | cons c rest =>
      rw [← hs]
      have h1 : sanitateDefines s = [' '] := by
        rw [sanitateDefines_characterization s, if_pos ⟨by simp [hs], hall⟩]
      rw [h1]
      decide
  · have h1 : sanitateDefines s = collapse 0 (trimEnds s) := by
      rw [sanitateDefines_characterization s, if_neg (by simp [hall]),
        collapse_zero_eq_collapseRuns]
    obtain ⟨c, hlast, hc⟩ := trimEnds_getLast hall
    have hvlast : (sanitateDefines s).getLast? = some c := by
      rw [h1]; exact collapse_getLast? _ 0 c hlast hc
    have hvhead : (sanitateDefines s).head? ≠ some ' ' := by
      rw [h1, collapse_zero_head? (trimEnds_head hall)]
      exact trimEnds_head hall
    have hvnd : NoDouble (sanitateDefines s) := by
      rw [h1]; exact collapse_noDouble _ 0
    have hvall : ¬ ∀ x ∈ sanitateDefines s, x = ' ' := by
      intro hcon
      exact hc (hcon c (List.mem_of_mem_getLast? hvlast))
    rw [sanitateDefines_characterization (sanitateDefines s), if_neg (by simp [hvall])]
    have htrim : trimEnds (sanitateDefines s) = sanitateDefines s := by
      show ((((sanitateDefines s).dropWhile (· = ' ')).reverse.dropWhile (· = ' ')).reverse) = _
      rw [dropWhile_eq_self_of_head hvhead,
        dropWhile_eq_self_of_head (by rw [List.head?_reverse, hvlast]; simpa using hc),
        List.reverse_reverse]
    rw [htrim, ← collapse_zero_eq_collapseRuns]
    exact collapse_eq_self _ 0 hvnd (Or.inr rfl)

/-- C2 (amended): `SanitateDefines` maps the empty string to itself and every
nonempty all-space string to a single space character (not the empty string);
for every other input, the leading and trailing spaces are dropped and every
interior run of two or more spaces is collapsed to exactly one space, e.g.
`SanitateDefines("  A   B  ") == "A B"`. -/
theorem sanitateDefines_whitespace_amended :
    (∀ s : List Char, sanitateDefines s =
      if s ≠ [] ∧ ∀ c ∈ s, c = ' ' then [' '] else collapseRuns (trimEnds s))
    ∧ sanitateDefines "  A   B  ".toList = "A B".toList :=
  ⟨sanitateDefines_characterization, by decide⟩

/-- C2 counterexample: the claim states that every input consisting only of
spaces sanitizes to the empty string, but `SanitateDefines("   ")` returns a
single space: when no non-space character exists, `start` and `end` keep their
initialization values `0` and `length`, so the copy loop scans the whole string
and keeps its first space. -/
theorem sanitateDefines_all_space_counterexample :
    sanitateDefines "   ".toList = [' '] ∧ sanitateDefines "   ".toList ≠ "".toList := by
  decide

/-- C10: the scan indices of `SanitateDefines` are always in range: the copy
loop's range `[start, end)` satisfies `start ≤ end ≤ length`, so every index it
reads (like every index the two trim scans read) lies inside `[0, length)`; the
function is total and its result never exceeds the input in length. -/
theorem sanitateDefines_index_safety (s : List Char) :
    findStart s ≤ findEnd s ∧ findEnd s ≤ s.length ∧
      (sanitateDefines s).length ≤ s.length := by
  refine ⟨?_, ?_, ?_⟩
  · cases hk : findStartAux s with
    | none => simp [findStart, hk]
    | some k =>
      cases hj : findEndAux s with
      | none =>
        rw [(findStartAux_eq_none_iff s).2 ((findEndAux_eq_none_iff s).1 hj)] at hk
        cases hk
      | some j =>
        have := findStart_le_findEnd_aux hk hj
        simp [findStart, findEnd, hk, hj]
        omega
  · cases hj : findEndAux s with
    | none => simp [findEnd, hj]
    | some j =>
      have := findEndAux_lt_length hj
      simp [findEnd, hj]
      omega
  · calc (sanitateDefines s).length
        ≤ ((s.take (findEnd s)).drop (findStart s)).length := collapse_length_le _ 0
      _ ≤ s.length := by
        rw [List.length_drop, List.length_take]
        omega

/-- Boolean prefix test on character lists (models `String::StartsWith`). -/
def startsWithList : List Char → List Char → Bool
  | [], _ => true
  | _ :: _, [] => false
  | p :: ps, c :: cs => p == c && startsWithList ps cs

/-- Whitespace as trimmed by the container's `Trimmed`: space and tab. -/
def isWhitespace (c : Char) : Bool := c == ' ' || c == '\t'

/-- Modelled from the spec: `String::Trimmed` (container String, not under
src/) removes leading and trailing whitespace ("trailing whitespace trimmed"). -/
def trimmed (s : List Char) : List Char :=
  ((s.dropWhile isWhitespace).reverse.dropWhile isWhitespace).reverse

/-- Models `.Replaced("\x22", "")` on the include line (Shader.cpp:167): a
single-character pattern replaced by the empty string removes every
double-quote character. -/
def removeQuotes (s : List Char) : List Char := s.filter (· ≠ '"')

/-- Index of the last occurrence of a character (used by the path helpers). -/
def lastIdxOf (t : Char) : List Char → Option Nat
  | [] => none
  | c :: rest =>
    match lastIdxOf t rest with
    | some j => some (j + 1)
    | none => if c = t then some 0 else none

/-- Modelled from the spec: `GetPath` (FileSystem.cpp, not under src/): the
directory part of a logical name — everything up to and including the last
'/' separator, empty when there is none ("resolve it relative to the
directory of the current stream's logical name"). -/
def getPath (s : List Char) : List Char :=
  match lastIdxOf '/' s with
  | some i => s.take (i + 1)
  | none => []

/-- Modelled from the spec: `SplitPath` (FileSystem.cpp, not under src/) splits
a name into directory, file name and extension, the extension starting at the
last '.' when it comes after the last '/'; `GetVariation` uses
`path + fileName`, i.e. the name without its extension. -/
def baseName (s : List Char) : List Char :=
  match lastIdxOf '.' s, lastIdxOf '/' s with
  | some e, some p => if p < e then s.take e else s
  | some e, none => s.take e
  | none, _ => s

/-- The include file name extracted by `Shader::ProcessSource` (Shader.cpp:167):
`GetPath(source.GetName()) + line.Substring(9).Replaced("\x22", "").Trimmed()`. -/
def extractIncludeName (sourceName line : List Char) : List Char :=
  getPath sourceName ++ trimmed (removeQuotes (line.drop 9))

example : extractIncludeName "Shaders/Basic.glsl".toList "#include \"inc.glsl\"".toList
    = "Shaders/inc.glsl".toList := by decide
example : extractIncludeName "Basic.glsl".toList "#include <inc.glsl>".toList
    = "<inc.glsl>".toList := by decide

/-- A byte stream already split into lines together with its logical name
(models the `Deserializer` that `ProcessSource` consumes via `ReadLine`). -/
structure SrcStream where
  name : List Char
  lines : List (List Char)

/-- Failure modes of the flatten operation: a missing include file, a missing
resource-cache collaborator, or exhaustion of the include-nesting fuel (the
C++ recursion has no depth guard; cyclic includes exhaust the call stack —
every claim is stated with sufficient fuel). -/
inductive ProcErr
  | includeNotFound
  | noCache
  | outOfFuel
deriving DecidableEq, Repr

/-- Result of the flatten operation: the flattened code paired with the list of
registered dependency edges, or an error. -/
inductive ProcResult
  | ok (code : List Char) (deps : List (List Char))
  | error (e : ProcErr)
deriving DecidableEq, Repr

/-- Line loop of `Shader::ProcessSource` (Shader.cpp:161-187), parametrized by
the action `rec` taken for a resolved include file: a line starting with
`#include` is resolved against the file provider and recursively spliced (the
recursive `ProcessSource` call registers the dependency edge for the included
stream at its entry, Shader.cpp:158-159); a missing include aborts the whole
flatten; any other line is copied verbatim followed by a newline; a fully
consumed stream appends one blank separator line. -/
def procLoop (provider : List Char → Option (List (List Char)))
    (shaderName : List Char)
    (rec : List Char → List (List Char) → List Char → List (List Char) →
      ProcResult) :
    List Char → List (List Char) → List Char → List (List Char) → ProcResult
  | _, [], code, deps => .ok (code ++ ['\n']) deps
  | sourceName, line :: rest, code, deps =>
    if startsWithList "#include".toList line then
      match provider (extractIncludeName sourceName line) with
      | none => .error .includeNotFound
      | some incLines =>
        let incName := extractIncludeName sourceName line
        let deps' := if incName ≠ shaderName then deps ++ [incName] else deps
        match rec incName incLines code deps' with
        | .error e => .error e
        | .ok code' deps'' =>
          procLoop provider shaderName rec sourceName rest code' deps''
    else procLoop provider shaderName rec sourceName rest (code ++ line ++ ['\n']) deps

/-- Recursive flattening of one stream (`Shader::ProcessSource` without its
cache check and top-level dependency registration): `fuel` bounds the include
nesting depth (the C++ recursion has no depth guard; cyclic include chains
exhaust the call stack — every claim is stated with sufficient fuel, and
exhaustion is the distinguished error `outOfFuel`). -/
def procStream (provider : List Char → Option (List (List Char)))
    (shaderName : List Char) :
    Nat → List Char → List (List Char) → List Char → List (List Char) →
    ProcResult
  | 0 => procLoop provider shaderName (fun _ _ _ _ => .error .outOfFuel)
  | fuel + 1 => procLoop provider shaderName (procStream provider shaderName fuel)

/-- `Shader::ProcessSource` (Shader.cpp:151-188): fails when the resource-cache
collaborator is absent; registers a dependency edge for the processed stream
when its name differs from the shader's own name; then runs the line loop.
Returns the flattened code paired with the list of registered dependency
edges. -/
def processSource (cacheAvailable : Bool)
    (provider : List Char → Option (List (List Char)))
    (shaderName : List Char) (fuel : Nat) (st : SrcStream) :
    ProcResult :=
  if !cacheAvailable then .error .noCache
  else
    procStream provider shaderName fuel st.name st.lines []
      (if st.name ≠ shaderName then [st.name] else [])

/-- Each processed line, copied verbatim and followed by a newline. -/
def flatLines (ls : List (List Char)) : List Char :=
  (ls.map (· ++ ['\n'])).flatten

/-- Modelled from the spec: `String::Replace(replaceThis, replaceWith)`
(container String, not under src/): left-to-right substring search and
replace, resuming the scan after the replacement text — the spec's
"string-based search/replace as a compilation transform" / "straightforward
substring search/replace primitives".  The scan consumes at least one input
character per step, so it is bounded by the input length, which
`replaceAll` passes as structural fuel. -/
def replaceAllAux (pat rep : List Char) : Nat → List Char → List Char
  | _, [] => []
  | 0, s => s
  | fuel + 1, c :: rest =>
    if startsWithList pat (c :: rest) then
      rep ++ replaceAllAux pat rep fuel (rest.drop (pat.length - 1))
    else c :: replaceAllAux pat rep fuel rest

/-- `String::Replace` of `pat` by `rep`, everywhere in the string. -/
def replaceAll (pat rep s : List Char) : List Char :=
  replaceAllAux pat rep s.length s

example :
    replaceAll "void PS(".toList "/* void PS(".toList "void VS() void PS() x".toList
      = "void VS() /* void PS() x".toList := by decide

/-- The two shader stages (`ShaderType`, declared in Shader.h). -/
inductive ShaderType
  | VS
  | PS
deriving DecidableEq, Repr

/-- A `ShaderVariation` object: identified by the id it receives at creation
(`new ShaderVariation(this, type)` — handle equality is id equality), carrying
the stage, the display name and canonical defines set by `GetVariation`, and
whether `Release` has been called on it (`ShaderVariation` itself lives outside
src/; `Release` is modelled as marking the variation as requiring recompile). -/
structure ShaderVariation where
  id : Nat
  vtype : ShaderType
  name : List Char
  defines : List Char
  released : Bool
deriving DecidableEq, Repr

/-- The state of one `Shader` resource: its resource name, the two stage source
strings, the two variation maps, the reported memory use, and the id counter
for freshly allocated variation objects. -/
structure ShaderState where
  name : List Char
  vsSourceCode : List Char
  psSourceCode : List Char
  vsVariations : List (List Char × ShaderVariation)
  psVariations : List (List Char × ShaderVariation)
  memoryUse : Nat
  nextId : Nat
deriving DecidableEq, Repr

/-- Abstract footprint constant for `sizeof(Shader)`; no claim depends on its
value. -/
def sizeofShader : Nat := 1

/-- Abstract footprint constant for `sizeof(ShaderVariation)`; no claim depends
on its value. -/
def sizeofShaderVariation : Nat := 1

/-- Association-list lookup (models `HashMap::Find` on the variation maps). -/
def alookup {α : Type} (k : List Char) : List (List Char × α) → Option α
  | [] => none
  | (k', v) :: rest => if k' = k then some v else alookup k rest

/-- Name derivation for a freshly created variation (Shader.cpp:116-120 and
136-140): shader name without its extension, an underscore, and the defines
with every space replaced by an underscore; when the result ends in an
underscore, that last character is trimmed (`Resize(Length()-1)`). -/
def variationFullName (shaderName defines : List Char) : List Char :=
  let fullName :=
    baseName shaderName ++ '_' :: defines.map (fun c => if c = ' ' then '_' else c)
  if fullName.getLast? = some '_' then fullName.dropLast else fullName

/-- `Shader::GetVariation` (Shader.cpp:104-149).  Modelled from the spec: the
content hash `StringHash(defines)` used as the cache key (StringHash, not under
src/) is modelled as the canonical defines string itself, an injective content
key; per the spec, hash collisions between distinct canonical strings are an
accepted, unhandled risk outside the contract. -/
def getVariation (t : ShaderType) (definesIn : List Char) (s : ShaderState) :
    ShaderVariation × ShaderState :=
  let defines := sanitateDefines definesIn
  match t with
  | .VS =>
    match alookup defines s.vsVariations with
    | some v => (v, s)
    | none =>
      let v : ShaderVariation :=
        { id := s.nextId, vtype := .VS, name := variationFullName s.name defines,
          defines := defines, released := false }
      (v, { s with
            vsVariations := (defines, v) :: s.vsVariations
            nextId := s.nextId + 1
            memoryUse := s.memoryUse + sizeofShaderVariation })
  | .PS =>
    match alookup defines s.psVariations with
    | some v => (v, s)
    | none =>
      let v : ShaderVariation :=
        { id := s.nextId, vtype := .PS, name := variationFullName s.name defines,
          defines := defines, released := false }
      (v, { s with
            psVariations := (defines, v) :: s.psVariations
            nextId := s.nextId + 1
            memoryUse := s.memoryUse + sizeofShaderVariation })

/-- Release every variation of a map in place (Shader.cpp:92-96): entries are
not removed, each stored object is marked as released / requiring recompile. -/
def markReleased (m : List (List Char × ShaderVariation)) :
    List (List Char × ShaderVariation) :=
  m.map (fun p => (p.1, { p.2 with released := true }))

/-- `Shader::Load` (Shader.cpp:57-102): fails without a graphics subsystem;
flattens the source (propagating its failure with no state change); derives the
two stage sources — `useOpenGL` selects the `#ifdef USE_OPENGL` dialect;
releases every already-created variation in both maps without removing map
entries; republishes the memory use. -/
def shaderLoad (useOpenGL graphicsAvailable cacheAvailable : Bool)
    (provider : List Char → Option (List (List Char))) (fuel : Nat)
    (source : SrcStream) (s : ShaderState) : Bool × ShaderState :=
  if !graphicsAvailable then (false, s)
  else
    match processSource cacheAvailable provider s.name fuel source with
    | .error _ => (false, s)
    | .ok shaderCode _ =>
      let vsSourceCode :=
        if useOpenGL then
          (replaceAll "void PS(".toList "/* void PS(".toList
            (replaceAll "void VS(".toList "void main(".toList shaderCode))
            ++ "*/\n".toList
        else
          (replaceAll "void PS(".toList "/* void PS(".toList shaderCode)
            ++ "*/\n".toList
      let psSourceCode :=
        if useOpenGL then
          replaceAll "void PS(".toList "*/\nvoid main(".toList
            (replaceAll "void VS(".toList "/* void VS(".toList
              (replaceAll "attribute ".toList "// attribute ".toList shaderCode))
        else
          replaceAll "void PS(".toList "*/\nvoid PS(".toList
            (replaceAll "void VS(".toList "/* void VS(".toList shaderCode)
      (true,
        { s with
          vsSourceCode := vsSourceCode
          psSourceCode := psSourceCode
          vsVariations := markReleased s.vsVariations
          psVariations := markReleased s.psVariations
          memoryUse := sizeofShader + vsSourceCode.length + psSourceCode.length +
            (s.vsVariations.length + s.psVariations.length) * sizeofShaderVariation })

section ScratchTests

example :
    replaceAll "void PS(".toList "/* void PS(".toList "void VS() void PS() x".toList
      = "void VS() /* void PS() x".toList := by decide

def testProvider : List Char → Option (List (List Char)) :=
  fun n => if n = "inc.glsl".toList then some ["X".toList] else none

example :
    processSource true testProvider "Root.glsl".toList 3
      ⟨"Root.glsl".toList, ["A".toList, "#include \"inc.glsl\"".toList, "B".toList]⟩
    = .ok "A\nX\n\nB\n\n".toList ["inc.glsl".toList] := by decide

example :
    processSource true (fun _ => none) "Root.glsl".toList 3
      ⟨"Root.glsl".toList, ["#include \"missing.h\"".toList]⟩
    = .error .includeNotFound := by decide

def testState : ShaderState :=
  { name := "Basic".toList, vsSourceCode := [], psSourceCode := [],
    vsVariations := [], psVariations := [], memoryUse := 0, nextId := 0 }

example : (getVariation .VS "FOO_".toList testState).1.name = "Basic_FOO".toList := by decide

example :
    (shaderLoad true true true (fun _ => none) 3
      ⟨"Basic".toList, ["void VS() int x;".toList, "void PS() int y;".toList]⟩ testState).1
    = true := by decide

example :
    (shaderLoad true true true (fun _ => none) 3
      ⟨"Basic".toList, ["void VS() int x;".toList, "void PS() int y;".toList]⟩ testState).2.vsSourceCode
    = "void main() int x;\n/* void PS() int y;\n\n*/\n".toList := by decide

end ScratchTests

theorem procLoop_no_includes (provider : List Char → Option (List (List Char)))
    (shaderName : List Char) (rec' : List Char → List (List Char) → List Char →
      List (List Char) → ProcResult) (sname : List Char) :
    ∀ (ls : List (List Char)) (code : List Char) (deps : List (List Char)),
      (∀ l ∈ ls, startsWithList "#include".toList l = false) →
      procLoop provider shaderName rec' sname ls code deps
        = .ok (code ++ flatLines ls ++ ['\n']) deps := by
  intro ls
  induction ls with
  | nil =>
    intro code deps _
    simp [procLoop, flatLines]
  | cons line rest ih =>
    intro code deps h
    have hline : startsWithList "#include".toList line = false := h line (by simp)
    simp only [procLoop, hline, Bool.false_eq_true, if_false]
    rw [ih _ _ (fun l hl => h l (by simp [hl]))]
    simp [flatLines]

theorem procLoop_append_no_includes (provider : List Char → Option (List (List Char)))
    (shaderName : List Char) (rec' : List Char → List (List Char) → List Char →
      List (List Char) → ProcResult) (sname : List Char) :
    ∀ (pre ls : List (List Char)) (code : List Char) (deps : List (List Char)),
      (∀ l ∈ pre, startsWithList "#include".toList l = false) →
      procLoop provider shaderName rec' sname (pre ++ ls) code deps
        = procLoop provider shaderName rec' sname ls (code ++ flatLines pre) deps := by
  intro pre
  induction pre with
  | nil =>
    intro ls code deps _
    simp [flatLines]
  | cons line rest ih =>
    intro ls code deps h
    have hline : startsWithList "#include".toList line = false := h line (by simp)
    simp only [List.cons_append, procLoop, hline, Bool.false_eq_true, if_false,
      List.append_eq]
    rw [ih _ _ _ (fun l hl => h l (by simp [hl]))]
    simp [flatLines]

theorem procStream_no_includes (provider : List Char → Option (List (List Char)))
    (shaderName : List Char) (fuel : Nat) (sname : List Char)
    (ls : List (List Char)) (code : List Char) (deps : List (List Char))
    (h : ∀ l ∈ ls, startsWithList "#include".toList l = false) :
    procStream provider shaderName fuel sname ls code deps
      = .ok (code ++ flatLines ls ++ ['\n']) deps := by
  cases fuel with
  | zero => exact procLoop_no_includes _ _ _ _ _ _ _ h
  | succ fuel => exact procLoop_no_includes _ _ _ _ _ _ _ h

/-- C7: include flattening.  For a root stream whose lines are any
include-free prefix, the line `#include "inc.glsl"`, and any include-free
suffix, with the provider resolving `inc.glsl` to the include-free lines `X`:
`ProcessSource` succeeds; its output is every non-include line copied verbatim
followed by a newline, with the flattened include spliced in place of the
directive and a blank separator line terminating each fully consumed stream
(one after `X`, one after the root); and a dependency edge is registered for
every processed stream whose name differs from the shader's own name. -/
theorem processSource_include_flattening
    (provider : List Char → Option (List (List Char)))
    (shaderName sname : List Char) (fuel : Nat)
    (pre post X : List (List Char))
    (hpre : ∀ l ∈ pre, startsWithList "#include".toList l = false)
    (hpost : ∀ l ∈ post, startsWithList "#include".toList l = false)
    (hX : ∀ l ∈ X, startsWithList "#include".toList l = false)
    (hpath : getPath sname = [])
    (hprov : provider "inc.glsl".toList = some X) :
    processSource true provider shaderName (fuel + 1)
        ⟨sname, pre ++ ["#include \"inc.glsl\"".toList] ++ post⟩ =
      .ok (flatLines pre ++ (flatLines X ++ ['\n']) ++ flatLines post ++ ['\n'])
        ((if sname ≠ shaderName then [sname] else []) ++
          (if "inc.glsl".toList ≠ shaderName then ["inc.glsl".toList] else [])) := by
  have hex : extractIncludeName sname "#include \"inc.glsl\"".toList = "inc.glsl".toList := by
    unfold extractIncludeName
    rw [hpath]
    decide
  show procStream provider shaderName (fuel + 1) sname _ [] _ = _
  show procLoop provider shaderName (procStream provider shaderName fuel) sname _ [] _ = _
  dsimp only
  rw [List.append_assoc]
  rw [procLoop_append_no_includes _ _ _ _ pre _ _ _ hpre]
  simp only [procLoop, hex, hprov,
    (by decide : startsWithList "#include".toList "#include \"inc.glsl\"".toList = true),
    if_true]
  rw [procStream_no_includes _ _ _ _ _ _ _ hX]
  dsimp only
  simp only [List.append_eq, List.nil_append]
  rw [procLoop_no_includes _ _ _ _ _ _ _ hpost]
  split_ifs <;> simp_all [flatLines]

/-- C8 counterexample: the claim states that for `#include <name>` the angle
brackets are removed before resolution, but the code only removes double-quote
characters (`Replaced("\x22", "")`): the angle-bracket form resolves to the
literal name `<inc.glsl>`, brackets included. -/
theorem extractIncludeName_angle_counterexample :
    extractIncludeName "Root.glsl".toList "#include <inc.glsl>".toList
        = "<inc.glsl>".toList ∧
      "<inc.glsl>".toList ≠ "inc.glsl".toList := by
  decide

theorem trimmed_cons_concat (a b : Char) (f : List Char)
    (ha : isWhitespace a = false) (hb : isWhitespace b = false) :
    trimmed (a :: (f ++ [b])) = a :: (f ++ [b]) := by
  unfold trimmed
  rw [List.dropWhile_cons, ha]
  simp only [Bool.false_eq_true, if_false]
  rw [List.reverse_cons, List.reverse_append, List.reverse_cons]
  simp only [List.reverse_nil, List.nil_append, List.cons_append,
    List.dropWhile_cons, hb, Bool.false_eq_true, if_false]
  simp

/-- C8 (amended): a line of either form `#include "name"` or `#include <name>`
is accepted (any line starting with `#include` is treated as a directive): the
text after the first nine characters has every double-quote character removed
and is trimmed of surrounding whitespace, and the result is resolved relative
to the directory of the current stream's logical name.  Quotes are therefore
removed, but angle brackets are NOT: `#include <name>` resolves to the literal
name `<name>` including the brackets. -/
theorem extractIncludeName_amended (sname f : List Char)
    (hq : removeQuotes f = f) (ht : trimmed f = f) :
    extractIncludeName sname ("#include ".toList ++ '"' :: (f ++ ['"']))
        = getPath sname ++ f ∧
      extractIncludeName sname ("#include ".toList ++ '<' :: (f ++ ['>']))
        = getPath sname ++ ('<' :: (f ++ ['>'])) := by
  constructor
  · unfold extractIncludeName
    rw [show (9 : Nat) = "#include ".toList.length from rfl, List.drop_left]
    congr 1
    have : removeQuotes ('"' :: (f ++ ['"'])) = f := by
      unfold removeQuotes at hq ⊢
      simp [List.filter_append, hq]
      intro a ha
      simpa using List.filter_eq_self.1 hq a ha
    rw [this, ht]
  · unfold extractIncludeName
    rw [show (9 : Nat) = "#include ".toList.length from rfl, List.drop_left]
    congr 1
    have : removeQuotes ('<' :: (f ++ ['>'])) = '<' :: (f ++ ['>']) := by
      unfold removeQuotes at hq ⊢
      simp [List.filter_append, hq]
      intro a ha
      simpa using List.filter_eq_self.1 hq a ha
    rw [this]
    exact trimmed_cons_concat _ _ _ (by decide) (by decide)

/-- C4: when the flatten operation fails because an include file at any
recursion depth cannot be opened, `Load` reports failure and leaves the two
stage source strings and the reported memory usage unchanged (so they retain
their prior values, or stay empty on a first load). -/
theorem shaderLoad_missing_include
    (useOpenGL graphicsAvailable cacheAvailable : Bool)
    (provider : List Char → Option (List (List Char))) (fuel : Nat)
    (source : SrcStream) (s : ShaderState)
    (h : processSource cacheAvailable provider s.name fuel source
      = .error .includeNotFound) :
    shaderLoad useOpenGL graphicsAvailable cacheAvailable provider fuel source s
        = (false, s) ∧
      (shaderLoad useOpenGL graphicsAvailable cacheAvailable provider fuel
          source s).2.vsSourceCode = s.vsSourceCode ∧
      (shaderLoad useOpenGL graphicsAvailable cacheAvailable provider fuel
          source s).2.psSourceCode = s.psSourceCode ∧
      (shaderLoad useOpenGL graphicsAvailable cacheAvailable provider fuel
          source s).2.memoryUse = s.memoryUse := by
  have hmain :
      shaderLoad useOpenGL graphicsAvailable cacheAvailable provider fuel source s
        = (false, s) := by
    unfold shaderLoad
    cases graphicsAvailable with
    | false => simp
    | true =>
      simp only [Bool.not_true, Bool.false_eq_true, if_false]
      rw [h]
  exact ⟨hmain, by rw [hmain], by rw [hmain], by rw [hmain]⟩

theorem processSource_include_flattening_witness :
    (∀ l ∈ ([["A".toList], ["B".toList], ["X".toList]] : List (List (List Char))),
      ∀ l' ∈ l, startsWithList "#include".toList l' = false) ∧
    getPath "Root.glsl".toList = [] ∧
    testProvider "inc.glsl".toList = some ["X".toList] ∧
    processSource true testProvider "Root.glsl".toList (2 + 1)
        ⟨"Root.glsl".toList,
          ["A".toList] ++ ["#include \"inc.glsl\"".toList] ++ ["B".toList]⟩ =
      .ok (flatLines ["A".toList] ++ (flatLines ["X".toList] ++ ['\n'])
            ++ flatLines ["B".toList] ++ ['\n'])
        ((if "Root.glsl".toList ≠ "Root.glsl".toList then ["Root.glsl".toList] else [])
          ++ (if "inc.glsl".toList ≠ "Root.glsl".toList then ["inc.glsl".toList] else [])) :=
  ⟨by decide, by decide, by decide,
    processSource_include_flattening testProvider "Root.glsl".toList "Root.glsl".toList 2
      ["A".toList] ["B".toList] ["X".toList]
      (by decide) (by decide) (by decide) (by decide) (by decide)⟩

theorem extractIncludeName_amended_witness :
    removeQuotes "inc.glsl".toList = "inc.glsl".toList ∧
    trimmed "inc.glsl".toList = "inc.glsl".toList ∧
    (extractIncludeName "Shaders/Basic.glsl".toList
        ("#include ".toList ++ '"' :: ("inc.glsl".toList ++ ['"']))
        = getPath "Shaders/Basic.glsl".toList ++ "inc.glsl".toList ∧
      extractIncludeName "Shaders/Basic.glsl".toList
          ("#include ".toList ++ '<' :: ("inc.glsl".toList ++ ['>']))
        = getPath "Shaders/Basic.glsl".toList ++ ('<' :: ("inc.glsl".toList ++ ['>']))) :=
  ⟨by decide, by decide,
    extractIncludeName_amended "Shaders/Basic.glsl".toList "inc.glsl".toList
      (by decide) (by decide)⟩

theorem shaderLoad_missing_include_witness :
    (processSource true (fun _ => none) testState.name 3
        ⟨"Basic".toList, ["#include \"missing.h\"".toList]⟩
      = .error .includeNotFound) ∧
    (shaderLoad true true true (fun _ => none) 3
        ⟨"Basic".toList, ["#include \"missing.h\"".toList]⟩ testState
        = (false, testState) ∧
      (shaderLoad true true true (fun _ => none) 3
          ⟨"Basic".toList, ["#include \"missing.h\"".toList]⟩
          testState).2.vsSourceCode = testState.vsSourceCode ∧
      (shaderLoad true true true (fun _ => none) 3
          ⟨"Basic".toList, ["#include \"missing.h\"".toList]⟩
          testState).2.psSourceCode = testState.psSourceCode ∧
      (shaderLoad true true true (fun _ => none) 3
          ⟨"Basic".toList, ["#include \"missing.h\"".toList]⟩
          testState).2.memoryUse = testState.memoryUse) :=
  ⟨by decide,
    shaderLoad_missing_include true true true (fun _ => none) 3
      ⟨"Basic".toList, ["#include \"missing.h\"".toList]⟩ testState (by decide)⟩

/-- The variation map of the stage `t` (vertex or pixel). -/
def stageMap (t : ShaderType) (s : ShaderState) :
    List (List Char × ShaderVariation) :=
  match t with
  | .VS => s.vsVariations
  | .PS => s.psVariations

/-- C9 counterexample: the claim states that the trailing underscore is trimmed
exactly when the canonicalized defines string is empty after trimming, and that
for a non-empty canonical defines string the variant name is the shader name,
an underscore, and the underscore-joined defines.  But for the canonical,
non-empty defines string `FOO_` the generated name is `Basic_FOO`, not
`Basic_FOO_`: the `EndsWith("_")` test also fires when the defines themselves
end in an underscore. -/
theorem getVariation_name_counterexample :
    sanitateDefines "FOO_".toList = "FOO_".toList ∧
    "FOO_".toList ≠ ([] : List Char) ∧
    (getVariation .VS "FOO_".toList testState).1.name = "Basic_FOO".toList ∧
    "Basic_FOO".toList ≠ "Basic".toList ++ '_' :: "FOO_".toList := by
  decide

/-- C9 (amended): when `GetVariation` creates a new variant, its display name is
the shader's own name without its extension, an underscore, and the
canonicalized defines with every space replaced by an underscore — except that
one trailing underscore is trimmed when that joined string ends in an
underscore, which happens exactly when the canonicalized defines string is
empty, ends in a space, or ends in an underscore character. -/
theorem getVariation_name_amended (t : ShaderType) (d : List Char)
    (s : ShaderState)
    (hmiss : alookup (sanitateDefines d) (stageMap t s) = none) :
    ((getVariation t d s).1.name =
      (if (baseName s.name ++ '_' ::
            (sanitateDefines d).map (fun c => if c = ' ' then '_' else c)).getLast?
          = some '_'
        then (baseName s.name ++ '_' ::
          (sanitateDefines d).map (fun c => if c = ' ' then '_' else c)).dropLast
        else baseName s.name ++ '_' ::
          (sanitateDefines d).map (fun c => if c = ' ' then '_' else c))) ∧
    ((baseName s.name ++ '_' ::
        (sanitateDefines d).map (fun c => if c = ' ' then '_' else c)).getLast?
        = some '_'
      ↔ sanitateDefines d = [] ∨ (sanitateDefines d).getLast? = some ' '
          ∨ (sanitateDefines d).getLast? = some '_') := by
  constructor
  · cases t with
    | VS =>
      simp only [stageMap] at hmiss
      simp [getVariation, hmiss, variationFullName]
    | PS =>
      simp only [stageMap] at hmiss
      simp [getVariation, hmiss, variationFullName]
  · have hlast : (baseName s.name ++ '_' ::
        (sanitateDefines d).map (fun c => if c = ' ' then '_' else c)).getLast?
        = ('_' :: (sanitateDefines d).map (fun c => if c = ' ' then '_' else c)).getLast? :=
      List.getLast?_append_of_ne_nil _ (by simp)
    rw [hlast]
    cases hd : (sanitateDefines d).getLast? with
    | none =>
      have : sanitateDefines d = [] := List.getLast?_eq_none_iff.1 hd
      simp [this]
    | some c =>
      have hne : sanitateDefines d ≠ [] := by
        intro hcon
        rw [hcon] at hd
        simp at hd
      have hmapne : (sanitateDefines d).map (fun c => if c = ' ' then '_' else c) ≠ [] := by
        simpa using hne
      cases hm : (sanitateDefines d).map (fun c => if c = ' ' then '_' else c) with
      | nil => exact absurd hm hmapne
      | cons x xs =>
        rw [List.getLast?_cons_cons]
        have h2 : (x :: xs).getLast? = some (if c = ' ' then '_' else c) := by
          rw [← hm, List.getLast?_map, hd]
          rfl
        rw [h2]
        constructor
        · intro h
          simp only [Option.some_inj] at h
          by_cases hsp : c = ' '
          · exact Or.inr (Or.inl (by simp [hsp]))
          · rw [if_neg hsp] at h
            exact Or.inr (Or.inr (by simp [h]))
        · intro h
          rcases h with h | h | h
          · exact absurd h hne
          · simp only [Option.some_inj] at h
            simp [h]
          · simp only [Option.some_inj] at h
            simp [h]

theorem getVariation_name_amended_witness :
    alookup (sanitateDefines "FOO BAR".toList) (stageMap .VS testState) = none ∧
    (((getVariation .VS "FOO BAR".toList testState).1.name =
      (if (baseName testState.name ++ '_' ::
            (sanitateDefines "FOO BAR".toList).map
              (fun c => if c = ' ' then '_' else c)).getLast? = some '_'
        then (baseName testState.name ++ '_' ::
          (sanitateDefines "FOO BAR".toList).map
            (fun c => if c = ' ' then '_' else c)).dropLast
        else baseName testState.name ++ '_' ::
          (sanitateDefines "FOO BAR".toList).map
            (fun c => if c = ' ' then '_' else c))) ∧
    ((baseName testState.name ++ '_' ::
        (sanitateDefines "FOO BAR".toList).map
          (fun c => if c = ' ' then '_' else c)).getLast? = some '_'
      ↔ sanitateDefines "FOO BAR".toList = []
        ∨ (sanitateDefines "FOO BAR".toList).getLast? = some ' '
        ∨ (sanitateDefines "FOO BAR".toList).getLast? = some '_')) :=
  ⟨by decide, getVariation_name_amended .VS "FOO BAR".toList testState (by decide)⟩

theorem alookup_markReleased (k : List Char) :
    ∀ m : List (List Char × ShaderVariation),
      alookup k (markReleased m)
        = (alookup k m).map (fun v => { v with released := true }) := by
  intro m
  induction m with
  | nil => rfl
  | cons p rest ih =>
    by_cases hk : p.1 = k
    · simp [markReleased, alookup, hk]
    · simp only [markReleased, List.map_cons, alookup, hk, if_false]
      simpa [markReleased] using ih

theorem markReleased_released (m : List (List Char × ShaderVariation)) :
    ∀ p ∈ markReleased m, p.2.released = true := by
  intro p hp
  simp only [markReleased, List.mem_map] at hp
  obtain ⟨q, _, hq⟩ := hp
  rw [← hq]

theorem markReleased_keys_ids (m : List (List Char × ShaderVariation)) :
    (markReleased m).map (fun p => (p.1, p.2.id)) = m.map (fun p => (p.1, p.2.id)) := by
  simp [markReleased, List.map_map]

theorem getVariation_hit {t : ShaderType} {d : List Char} {s : ShaderState}
    {v : ShaderVariation}
    (h : alookup (sanitateDefines d) (stageMap t s) = some v) :
    getVariation t d s = (v, s) := by
  cases t with
  | VS =>
    simp only [stageMap] at h
    simp [getVariation, h]
  | PS =>
    simp only [stageMap] at h
    simp [getVariation, h]

theorem getVariation_lookup_self (t : ShaderType) (d : List Char) (s : ShaderState) :
    alookup (sanitateDefines d) (stageMap t (getVariation t d s).2)
      = some (getVariation t d s).1 := by
  cases t with
  | VS =>
    cases h : alookup (sanitateDefines d) s.vsVariations with
    | some v => simp [getVariation, stageMap, h, alookup]
    | none => simp [getVariation, stageMap, h, alookup]
  | PS =>
    cases h : alookup (sanitateDefines d) s.psVariations with
    | some v => simp [getVariation, stageMap, h, alookup]
    | none => simp [getVariation, stageMap, h, alookup]

theorem shaderLoad_success_state (useOpenGL cacheAvailable : Bool)
    (provider : List Char → Option (List (List Char))) (fuel : Nat)
    (source : SrcStream) (s : ShaderState)
    (h : (shaderLoad useOpenGL true cacheAvailable provider fuel source s).1 = true) :
    (shaderLoad useOpenGL true cacheAvailable provider fuel source s).2.vsVariations
        = markReleased s.vsVariations ∧
      (shaderLoad useOpenGL true cacheAvailable provider fuel source s).2.psVariations
        = markReleased s.psVariations := by
  unfold shaderLoad at h ⊢
  cases hps : processSource cacheAvailable provider s.name fuel source with
  | error e =>
    rw [hps] at h
    simp at h
  | ok code deps => simp

/-- C5: reload invalidation.  Request a variant (creating it if needed), then
successfully reload the shader: every variation stored in both maps is marked
released (requiring recompile); no entry is removed from either map (the maps
keep exactly their keys and the ids of their stored objects); the previously
returned handle is still the object stored under its key; and a subsequent
`GetVariation` with equivalent defines still returns that same handle. -/
theorem shaderLoad_reload_invalidation
    (t : ShaderType) (d d' : List Char) (s : ShaderState)
    (useOpenGL cacheAvailable : Bool)
    (provider : List Char → Option (List (List Char))) (fuel : Nat)
    (source : SrcStream)
    (hsan : sanitateDefines d' = sanitateDefines d)
    (hload : (shaderLoad useOpenGL true cacheAvailable provider fuel source
      (getVariation t d s).2).1 = true) :
    (∀ p ∈ (shaderLoad useOpenGL true cacheAvailable provider fuel source
        (getVariation t d s).2).2.vsVariations, p.2.released = true) ∧
    (∀ p ∈ (shaderLoad useOpenGL true cacheAvailable provider fuel source
        (getVariation t d s).2).2.psVariations, p.2.released = true) ∧
    ((shaderLoad useOpenGL true cacheAvailable provider fuel source
        (getVariation t d s).2).2.vsVariations.map (fun p => (p.1, p.2.id))
      = (getVariation t d s).2.vsVariations.map (fun p => (p.1, p.2.id))) ∧
    ((shaderLoad useOpenGL true cacheAvailable provider fuel source
        (getVariation t d s).2).2.psVariations.map (fun p => (p.1, p.2.id))
      = (getVariation t d s).2.psVariations.map (fun p => (p.1, p.2.id))) ∧
    (∃ v', alookup (sanitateDefines d)
        (stageMap t (shaderLoad useOpenGL true cacheAvailable provider fuel source
          (getVariation t d s).2).2) = some v' ∧
      v'.id = (getVariation t d s).1.id ∧ v'.released = true) ∧
    ((getVariation t d' (shaderLoad useOpenGL true cacheAvailable provider fuel source
        (getVariation t d s).2).2).1.id = (getVariation t d s).1.id) := by
  obtain ⟨hvs, hps⟩ := shaderLoad_success_state useOpenGL cacheAvailable provider fuel
    source (getVariation t d s).2 hload
  have hstage : stageMap t (shaderLoad useOpenGL true cacheAvailable provider fuel source
      (getVariation t d s).2).2 = markReleased (stageMap t (getVariation t d s).2) := by
    cases t <;> simp [stageMap, hvs, hps]
  have hlook : alookup (sanitateDefines d)
      (stageMap t (shaderLoad useOpenGL true cacheAvailable provider fuel source
        (getVariation t d s).2).2)
      = some { (getVariation t d s).1 with released := true } := by
    rw [hstage, alookup_markReleased, getVariation_lookup_self]
    rfl
  refine ⟨?_, ?_, ?_, ?_, ?_, ?_⟩
  · rw [hvs]; exact markReleased_released _
  · rw [hps]; exact markReleased_released _
  · rw [hvs]; exact markReleased_keys_ids _
  · rw [hps]; exact markReleased_keys_ids _
  · exact ⟨_, hlook, rfl, rfl⟩
  · have := getVariation_hit (t := t) (d := d')
      (s := (shaderLoad useOpenGL true cacheAvailable provider fuel source
        (getVariation t d s).2).2) (by rw [hsan]; exact hlook)
    rw [this]

/-- A small include-free source used to exercise `Load` in witnesses. -/
def testLoadSrc : SrcStream :=
  ⟨"Basic".toList, ["void VS()".toList, "void PS()".toList]⟩

theorem shaderLoad_reload_invalidation_witness :
    sanitateDefines " FOO ".toList = sanitateDefines "FOO".toList ∧
    (shaderLoad true true true (fun _ => none) 3 testLoadSrc
      (getVariation .VS "FOO".toList testState).2).1 = true ∧
    (getVariation .VS " FOO ".toList
        (shaderLoad true true true (fun _ => none) 3 testLoadSrc
          (getVariation .VS "FOO".toList testState).2).2).1.id
      = (getVariation .VS "FOO".toList testState).1.id :=
  ⟨by decide, by decide,
    (shaderLoad_reload_invalidation .VS "FOO".toList " FOO ".toList testState true true
      (fun _ => none) 3 testLoadSrc (by decide) (by decide)).2.2.2.2.2⟩

/-- The ids of all variation objects stored in a map. -/
def idsOf (m : List (List Char × ShaderVariation)) : List Nat :=
  m.map (fun p => p.2.id)

/-- Well-formedness of a shader state, as established by construction: the
variation objects stored across the two maps are pairwise distinct (no two
entries alias one object) and every stored object was allocated before the
current allocation counter. -/
structure Inv (s : ShaderState) : Prop where
  idsNodup : (idsOf s.vsVariations ++ idsOf s.psVariations).Nodup
  idsLt : ∀ i ∈ idsOf s.vsVariations ++ idsOf s.psVariations, i < s.nextId

theorem alookup_id_mem {m : List (List Char × ShaderVariation)} {k : List Char}
    {v : ShaderVariation} (h : alookup k m = some v) : v.id ∈ idsOf m := by
  induction m with
  | nil => simp [alookup] at h
  | cons p rest ih =>
    simp only [alookup] at h
    simp only [idsOf, List.map_cons]
    by_cases e : p.1 = k
    · rw [if_pos e] at h
      injection h with h
      rw [h]
      exact List.mem_cons_self _ _
    · rw [if_neg e] at h
      exact List.mem_cons_of_mem _ (ih h)

theorem alookup_inj {m : List (List Char × ShaderVariation)}
    (hnd : (idsOf m).Nodup) {k k' : List Char} {v v' : ShaderVariation}
    (h : alookup k m = some v) (h' : alookup k' m = some v')
    (hid : v.id = v'.id) : k = k' := by
  induction m with
  | nil => simp [alookup] at h
  | cons p rest ih =>
    simp only [alookup] at h h'
    simp only [idsOf, List.map_cons, List.nodup_cons] at hnd
    by_cases e1 : p.1 = k
    · by_cases e2 : p.1 = k'
      · rw [← e1, ← e2]
      · rw [if_pos e1] at h
        rw [if_neg e2] at h'
        injection h with h
        have hmem : p.2.id ∈ List.map (fun p => p.2.id) rest := by
          rw [h, hid]
          exact alookup_id_mem h'
        exact absurd hmem hnd.1
    · by_cases e2 : p.1 = k'
      · rw [if_neg e1] at h
        rw [if_pos e2] at h'
        injection h' with h'
        have hmem : p.2.id ∈ List.map (fun p => p.2.id) rest := by
          rw [h', ← hid]
          exact alookup_id_mem h
        exact absurd hmem hnd.1
      · rw [if_neg e1] at h
        rw [if_neg e2] at h'
        exact ih hnd.2 h h'

theorem stage_ids_nodup {s : ShaderState} (hInv : Inv s) (t : ShaderType) :
    (idsOf (stageMap t s)).Nodup := by
  have := hInv.idsNodup
  rw [List.nodup_append] at this
  cases t with
  | VS => exact this.1
  | PS => exact this.2.1

theorem id_lt_of_lookup {s : ShaderState} (hInv : Inv s) {t : ShaderType}
    {k : List Char} {v : ShaderVariation}
    (h : alookup k (stageMap t s) = some v) : v.id < s.nextId := by
  have hm := alookup_id_mem h
  apply hInv.idsLt
  cases t with
  | VS => exact List.mem_append.2 (Or.inl (by simpa [stageMap] using hm))
  | PS => exact List.mem_append.2 (Or.inr (by simpa [stageMap] using hm))

theorem ids_distinct_across {s : ShaderState} (hInv : Inv s)
    {t1 t2 : ShaderType} (hne : t1 ≠ t2) {k1 k2 : List Char}
    {v w : ShaderVariation}
    (h1 : alookup k1 (stageMap t1 s) = some v)
    (h2 : alookup k2 (stageMap t2 s) = some w) : v.id ≠ w.id := by
  have m1 := alookup_id_mem h1
  have m2 := alookup_id_mem h2
  have hd := List.disjoint_of_nodup_append hInv.idsNodup
  cases t1 with
  | VS =>
    cases t2 with
    | VS => exact absurd rfl hne
    | PS =>
      intro he
      apply hd (a := v.id) (by simpa [stageMap] using m1)
      rw [he]
      simpa [stageMap] using m2
  | PS =>
    cases t2 with
    | VS =>
      intro he
      apply hd (a := v.id) ?_ (by simpa [stageMap] using m1)
      rw [he]
      simpa [stageMap] using m2
    | PS => exact absurd rfl hne

theorem getVariation_miss_id {t : ShaderType} {d : List Char} {s : ShaderState}
    (h : alookup (sanitateDefines d) (stageMap t s) = none) :
    (getVariation t d s).1.id = s.nextId := by
  cases t with
  | VS =>
    simp only [stageMap] at h
    simp [getVariation, h]
  | PS =>
    simp only [stageMap] at h
    simp [getVariation, h]

theorem getVariation_miss_nextId {t : ShaderType} {d : List Char} {s : ShaderState}
    (h : alookup (sanitateDefines d) (stageMap t s) = none) :
    (getVariation t d s).2.nextId = s.nextId + 1 := by
  cases t with
  | VS =>
    simp only [stageMap] at h
    simp [getVariation, h]
  | PS =>
    simp only [stageMap] at h
    simp [getVariation, h]

theorem getVariation_miss_stage {t : ShaderType} {d : List Char} {s : ShaderState}
    (h : alookup (sanitateDefines d) (stageMap t s) = none) :
    stageMap t (getVariation t d s).2
      = (sanitateDefines d, (getVariation t d s).1) :: stageMap t s := by
  cases t with
  | VS =>
    simp only [stageMap] at h ⊢
    simp [getVariation, h]
  | PS =>
    simp only [stageMap] at h ⊢
    simp [getVariation, h]

theorem getVariation_miss_other {t t' : ShaderType} {d : List Char}
    {s : ShaderState} (h : alookup (sanitateDefines d) (stageMap t s) = none)
    (hne : t' ≠ t) :
    stageMap t' (getVariation t d s).2 = stageMap t' s := by
  cases t with
  | VS =>
    cases t' with
    | VS => exact absurd rfl hne
    | PS =>
      simp only [stageMap] at h ⊢
      simp [getVariation, h]
  | PS =>
    cases t' with
    | VS =>
      simp only [stageMap] at h ⊢
      simp [getVariation, h]
    | PS => exact absurd rfl hne

theorem getVariation_hit_snd {t : ShaderType} {d : List Char} {s : ShaderState}
    {v : ShaderVariation}
    (h : alookup (sanitateDefines d) (stageMap t s) = some v) :
    (getVariation t d s).2 = s := by
  rw [getVariation_hit h]

/-- C1: variant identity.  For any well-formed shader state, two successive
`GetVariation` calls return the same variant handle (the same variation
object) exactly when the stage tags match and the sanitized defines strings
are equal.  In particular `GetVariation(VS, "FOO")` and
`GetVariation(PS, "FOO")` return distinct handles, while
`GetVariation(VS, "FOO BAR")` and `GetVariation(VS, " FOO   BAR ")` return
the identical handle. -/
theorem getVariation_identity (s : ShaderState) (hInv : Inv s)
    (t1 t2 : ShaderType) (d1 d2 : List Char) :
    (getVariation t2 d2 (getVariation t1 d1 s).2).1.id
        = (getVariation t1 d1 s).1.id
      ↔ (t1 = t2 ∧ sanitateDefines d1 = sanitateDefines d2) := by
  constructor
  · intro h
    cases h1 : alookup (sanitateDefines d1) (stageMap t1 s) with
    | some v =>
      -- first call found an existing entry; state unchanged
      rw [getVariation_hit h1] at h
      dsimp only at h
      cases h2 : alookup (sanitateDefines d2) (stageMap t2 s) with
      | some w =>
        rw [getVariation_hit h2] at h
        dsimp only at h
        by_cases hstage : t1 = t2
        · subst hstage
          exact ⟨rfl, alookup_inj (stage_ids_nodup hInv t1) h1 h2 h.symm⟩
        · exact absurd h.symm (ids_distinct_across hInv hstage h1 h2)
      | none =>
        have hid2 := getVariation_miss_id h2
        have hlt := id_lt_of_lookup hInv h1
        rw [hid2] at h
        exact absurd h (by omega)
    | none =>
      have hid1 := getVariation_miss_id h1
      have hnext := getVariation_miss_nextId h1
      rw [hid1] at h
      by_cases hstage : t2 = t1
      · subst hstage
        have hstageeq := getVariation_miss_stage h1
        cases h2 : alookup (sanitateDefines d2)
            (stageMap t2 (getVariation t2 d1 s).2) with
        | some w =>
          by_cases hk : sanitateDefines d1 = sanitateDefines d2
          · exact ⟨rfl, hk⟩
          · have h2' : alookup (sanitateDefines d2) (stageMap t2 s) = some w := by
              rw [hstageeq] at h2
              simp only [alookup] at h2
              rw [if_neg hk] at h2
              exact h2
            rw [getVariation_hit h2] at h
            dsimp only at h
            have hlt := id_lt_of_lookup hInv h2'
            exact absurd h (by omega)
        | none =>
          have hid2 := getVariation_miss_id h2
          rw [hid2, hnext] at h
          exact absurd h (by omega)
      · cases h2 : alookup (sanitateDefines d2)
            (stageMap t2 (getVariation t1 d1 s).2) with
        | some w =>
          have h2' : alookup (sanitateDefines d2) (stageMap t2 s) = some w := by
            rw [← getVariation_miss_other h1 hstage]
            exact h2
          rw [getVariation_hit h2] at h
          dsimp only at h
          have hlt := id_lt_of_lookup hInv h2'
          exact absurd h (by omega)
        | none =>
          have hid2 := getVariation_miss_id h2
          rw [hid2, hnext] at h
          exact absurd h (by omega)
  · rintro ⟨ht, hk⟩
    subst ht
    have h2 : alookup (sanitateDefines d2) (stageMap t1 (getVariation t1 d1 s).2)
        = some (getVariation t1 d1 s).1 := by
      rw [← hk]
      exact getVariation_lookup_self t1 d1 s
    rw [getVariation_hit h2]

theorem getVariation_identity_witness :
    Inv testState ∧
    (((getVariation .PS "FOO".toList (getVariation .VS "FOO".toList testState).2).1.id
        = (getVariation .VS "FOO".toList testState).1.id)
      ↔ (ShaderType.VS = ShaderType.PS ∧
          sanitateDefines "FOO".toList = sanitateDefines "FOO".toList)) :=
  ⟨⟨by simp [idsOf, testState], by simp [idsOf, testState]⟩,
    getVariation_identity testState
      ⟨by simp [idsOf, testState], by simp [idsOf, testState]⟩ .VS .PS
      "FOO".toList "FOO".toList⟩

/-- The pattern `p` occurs in `t` at position `i` (all of `p` matches there). -/
def OccursAt (p : List Char) (i : Nat) (t : List Char) : Prop :=
  (t.drop i).take p.length = p

instance (p : List Char) (i : Nat) (t : List Char) : Decidable (OccursAt p i t) :=
  inferInstanceAs (Decidable ((t.drop i).take p.length = p))

theorem occursAt_length {p : List Char} (hp : p ≠ []) {i : Nat} {t : List Char}
    (h : OccursAt p i t) : i + p.length ≤ t.length := by
  have hl := congrArg List.length h
  rw [List.length_take, List.length_drop] at hl
  have h1 : p.length ≤ t.length - i := by
    have := min_le_right p.length (t.length - i)
    rw [hl] at this
    exact this
  have h2 : 1 ≤ p.length := List.length_pos.2 hp
  omega

theorem occursAt_append_left {p : List Char} (hp : p ≠ []) {i : Nat} {t : List Char}
    (h : OccursAt p i t) (z : List Char) : OccursAt p i (t ++ z) := by
  have hb := occursAt_length hp h
  unfold OccursAt at h ⊢
  rw [List.drop_append_of_le_length (by omega),
    List.take_append_of_le_length (by rw [List.length_drop]; omega)]
  exact h

theorem occursAt_append_right {p : List Char} {j : Nat} {t z : List Char}
    (h : OccursAt p j z) : OccursAt p (t.length + j) (t ++ z) := by
  unfold OccursAt at h ⊢
  rw [List.drop_append]
  exact h

theorem occursAt_within {p : List Char} {i : Nat} {t z : List Char}
    (h : OccursAt p i (t ++ z)) (hb : i + p.length ≤ t.length) : OccursAt p i t := by
  unfold OccursAt at h ⊢
  rw [List.drop_append_of_le_length (by omega),
    List.take_append_of_le_length (by rw [List.length_drop]; omega)] at h
  exact h

theorem occursAt_right_of_ge {p : List Char} {i : Nat} {t z : List Char}
    (h : OccursAt p i (t ++ z)) (hb : t.length ≤ i) : OccursAt p (i - t.length) z := by
  unfold OccursAt at h ⊢
  rw [show i = t.length + (i - t.length) by omega, List.drop_append] at h
  exact h

theorem occursAt_split {p : List Char} (hp : p ≠ []) {i : Nat} {t z : List Char}
    (h : OccursAt p i (t ++ z)) :
    (i + p.length ≤ t.length ∧ OccursAt p i t)
    ∨ (t.length ≤ i ∧ OccursAt p (i - t.length) z)
    ∨ (i < t.length ∧ t.length < i + p.length
        ∧ t.drop i = p.take (t.length - i)
        ∧ z.take (p.length - (t.length - i)) = p.drop (t.length - i)) := by
  by_cases h1 : i + p.length ≤ t.length
  · exact Or.inl ⟨h1, occursAt_within h h1⟩
  by_cases h2 : t.length ≤ i
  · exact Or.inr (Or.inl ⟨h2, occursAt_right_of_ge h h2⟩)
  · push_neg at h1 h2
    have hld : (t.drop i).length = t.length - i := List.length_drop i t
    unfold OccursAt at h
    rw [List.drop_append_of_le_length (le_of_lt h2),
      List.take_append_eq_append_take,
      List.take_of_length_le (by rw [hld]; omega), hld] at h
    refine Or.inr (Or.inr ⟨h2, h1, ?_, ?_⟩)
    · have := congrArg (List.take (t.length - i)) h.symm
      rw [← hld, List.take_left] at this
      rw [hld] at this
      exact this.symm
    · have := congrArg (List.drop (t.length - i)) h.symm
      rw [← hld, List.drop_left] at this
      rw [hld] at this
      exact this.symm

theorem startsWithList_iff (p : List Char) :
    ∀ s, startsWithList p s = true ↔ s.take p.length = p := by
  induction p with
  | nil => intro s; simp [startsWithList]
  | cons a ps ih =>
    intro s
    cases s with
    | nil => simp [startsWithList]
    | cons c cs =>
      simp only [startsWithList, Bool.and_eq_true, beq_iff_eq, List.length_cons,
        List.take_succ_cons, List.cons.injEq]
      rw [ih cs]
      exact ⟨fun ⟨h1, h2⟩ => ⟨h1.symm, h2⟩, fun ⟨h1, h2⟩ => ⟨h1.symm, h2⟩⟩

theorem occursAt_zero {p s : List Char} :
    OccursAt p 0 s ↔ startsWithList p s = true := by
  unfold OccursAt
  rw [List.drop_zero]
  exact (startsWithList_iff p s).symm

theorem occursAt_succ_cons {p : List Char} {j : Nat} {c : Char} {t : List Char} :
    OccursAt p (j + 1) (c :: t) ↔ OccursAt p j t := by
  unfold OccursAt
  rw [List.drop_succ_cons]

theorem no_occursAt_nil {p : List Char} (hp : p ≠ []) (i : Nat) :
    ¬ OccursAt p i ([] : List Char) := by
  unfold OccursAt
  rw [List.drop_nil, List.take_nil]
  intro h
  exact hp h.symm

theorem head?_take {l : List Char} {n : Nat} (hn : 0 < n) :
    (l.take n).head? = l.head? := by
  cases l with
  | nil => simp
  | cons c cs =>
    cases n with
    | zero => omega
    | succ n => simp

theorem head?_append_of_ne_nil {l : List Char} (hl : l ≠ []) (u : List Char) :
    (l ++ u).head? = l.head? := by
  cases l with
  | nil => exact absurd rfl hl
  | cons c cs => simp

theorem occursAt_get {p : List Char} (hp : p ≠ []) {i : Nat} {t : List Char}
    (h : OccursAt p i t) : t.get? i = p.head? := by
  have := congrArg List.head? h
  rw [head?_take (List.length_pos.2 hp)] at this
  rw [← this, List.head?_drop]
  exact List.get?_eq_getElem? _ _

theorem replaceAllAux_congr (pat rep : List Char) :
    ∀ fuel fuel' (s : List Char), s.length ≤ fuel → s.length ≤ fuel' →
      replaceAllAux pat rep fuel s = replaceAllAux pat rep fuel' s := by
  intro fuel
  induction fuel with
  | zero =>
    intro fuel' s hs _
    rw [List.length_eq_zero.1 (Nat.le_zero.1 hs)]
    cases fuel' <;> rfl
  | succ fuel ih =>
    intro fuel' s hs hs'
    cases s with
    | nil => cases fuel' <;> rfl
    | cons c rest =>
      cases fuel' with
      | zero => simp at hs'
      | succ fuel'' =>
        simp only [replaceAllAux]
        simp only [List.length_cons] at hs hs'
        by_cases hsw : startsWithList pat (c :: rest) = true
        · rw [if_pos hsw, if_pos hsw]
          congr 1
          exact ih fuel'' _ (by rw [List.length_drop]; omega)
            (by rw [List.length_drop]; omega)
        · rw [if_neg hsw, if_neg hsw]
          congr 1
          exact ih fuel'' _ (by omega) (by omega)

theorem replaceAll_nil (pat rep : List Char) : replaceAll pat rep [] = [] := rfl

theorem replaceAll_cons (pat rep : List Char) (c : Char) (rest : List Char) :
    replaceAll pat rep (c :: rest) =
      if startsWithList pat (c :: rest) then
        rep ++ replaceAll pat rep (rest.drop (pat.length - 1))
      else c :: replaceAll pat rep rest := by
  show replaceAllAux pat rep (rest.length + 1) (c :: rest) = _
  simp only [replaceAllAux]
  by_cases hsw : startsWithList pat (c :: rest) = true
  · rw [if_pos hsw, if_pos hsw]
    congr 1
    exact replaceAllAux_congr pat rep rest.length _ _
      (by rw [List.length_drop]; omega) le_rfl
  · rw [if_neg hsw, if_neg hsw]
    rfl

theorem replaceAll_seg (pat rep : List Char) (hp : pat ≠ []) :
    ∀ (n : Nat) (s : List Char), s.length ≤ n →
      (replaceAll pat rep s = s ∧ ∀ i, ¬ OccursAt pat i s)
      ∨ ∃ pre mid, s = pre ++ pat ++ mid
          ∧ replaceAll pat rep s = pre ++ rep ++ replaceAll pat rep mid
          ∧ ∀ i < pre.length, ¬ OccursAt pat i s := by
  intro n
  induction n with
  | zero =>
    intro s hs
    rw [List.length_eq_zero.1 (Nat.le_zero.1 hs)]
    exact Or.inl ⟨rfl, fun i => no_occursAt_nil hp i⟩
  | succ n ih =>
    intro s hs
    cases s with
    | nil => exact Or.inl ⟨rfl, fun i => no_occursAt_nil hp i⟩
    | cons c rest =>
      simp only [List.length_cons] at hs
      by_cases hsw : startsWithList pat (c :: rest) = true
      · refine Or.inr ⟨[], (c :: rest).drop pat.length, ?_, ?_, ?_⟩
        · have htake : (c :: rest).take pat.length = pat :=
            (startsWithList_iff pat _).1 hsw
          rw [List.nil_append]
          conv_lhs => rw [← List.take_append_drop pat.length (c :: rest)]
          rw [htake]
        · rw [replaceAll_cons, if_pos hsw, List.nil_append]
          obtain ⟨k, hk⟩ : ∃ k, pat.length = k + 1 :=
            Nat.exists_eq_succ_of_ne_zero (by simpa using hp)
          rw [hk]
          simp [List.drop_succ_cons]
        · intro i hi
          simp at hi
      · cases ih rest (by omega) with
        | inl hl =>
          left
          constructor
          · rw [replaceAll_cons, if_neg hsw, hl.1]
          · intro i
            cases i with
            | zero =>
              rw [occursAt_zero]
              exact hsw
            | succ j =>
              rw [occursAt_succ_cons]
              exact hl.2 j
        | inr hr =>
          obtain ⟨pre', mid, hsplit, hre, hmin⟩ := hr
          right
          refine ⟨c :: pre', mid, ?_, ?_, ?_⟩
          · rw [hsplit]
            simp
          · rw [replaceAll_cons, if_neg hsw, hre]
            simp
          · intro i hi
            cases i with
            | zero =>
              rw [occursAt_zero]
              exact hsw
            | succ j =>
              rw [occursAt_succ_cons]
              exact hmin j (by simpa using hi)

/-- The three characters written before a commented-out entry point. -/
def commentMark : List Char := ['/', '*', ' ']

/-- Every occurrence of `q` in `t` lies at least three characters in and is
immediately preceded by the comment opener `/* `: no occurrence of `q` is
active (uncommented). -/
def Commented (q t : List Char) : Prop :=
  ∀ i, OccursAt q i t → 3 ≤ i ∧ OccursAt commentMark (i - 3) t

theorem replace_commented_intro (pat rep : List Char) (hp : pat ≠ []) (hr : rep ≠ [])
    (hhead : ∀ k, k < pat.length → 0 < k → pat.get? k ≠ rep.head?)
    (hinside : ∀ j, j < rep.length → OccursAt pat j rep →
      3 ≤ j ∧ OccursAt commentMark (j - 3) rep)
    (hspan : ∀ j, j < rep.length → 0 < rep.length - j → rep.length - j < pat.length →
      rep.drop j ≠ pat.take (rep.length - j)) :
    ∀ (n : Nat) (s : List Char), s.length ≤ n →
      Commented pat (replaceAll pat rep s) := by
  intro n
  induction n with
  | zero =>
    intro s hs
    rw [List.length_eq_zero.1 (Nat.le_zero.1 hs), replaceAll_nil]
    intro i hi
    exact absurd hi (no_occursAt_nil hp i)
  | succ n ih =>
    intro s hs
    cases replaceAll_seg pat rep hp (n + 1) s hs with
    | inl hl =>
      rw [hl.1]
      intro i hi
      exact absurd hi (hl.2 i)
    | inr hr2 =>
      obtain ⟨pre, mid, hsplit, hre, hmin⟩ := hr2
      have hmidlen : mid.length ≤ n := by
        have := congrArg List.length hsplit
        simp only [List.length_append] at this
        have hp1 : 1 ≤ pat.length := List.length_pos.2 hp
        omega
      rw [hre]
      intro i hi
      rw [List.append_assoc] at hi ⊢
      cases occursAt_split hp hi with
      | inl hcase =>
        exfalso
        apply hmin i (by have := List.length_pos.2 hp; omega)
        rw [hsplit, List.append_assoc]
        exact occursAt_append_left hp hcase.2 _
      | inr hcase =>
        cases hcase with
        | inl hge =>
          obtain ⟨hge1, hocc2⟩ := hge
          cases occursAt_split hp hocc2 with
          | inl hin =>
            have hjlt : i - pre.length < rep.length := by
              have := List.length_pos.2 hp
              have := hin.1
              omega
            obtain ⟨h3, hmark⟩ := hinside _ hjlt hin.2
            refine ⟨by omega, ?_⟩
            have hm1 : OccursAt commentMark (i - pre.length - 3)
                (rep ++ replaceAll pat rep mid) :=
              occursAt_append_left (by decide) hmark _
            have hm2 := occursAt_append_right (t := pre) hm1
            rw [show pre.length + (i - pre.length - 3) = i - 3 by omega] at hm2
            exact hm2
          | inr hin2 =>
            cases hin2 with
            | inl hmidc =>
              obtain ⟨hge2, hocc3⟩ := hmidc
              obtain ⟨h3, hmark⟩ := ih mid hmidlen _ hocc3
              refine ⟨by omega, ?_⟩
              have hm1 := occursAt_append_right (t := rep) hmark
              have hm2 := occursAt_append_right (t := pre) hm1
              rw [show pre.length + (rep.length + (i - pre.length - rep.length - 3))
                = i - 3 by omega] at hm2
              exact hm2
            | inr hspan2 =>
              exfalso
              obtain ⟨hlt, hgt, hdrop, _⟩ := hspan2
              exact hspan _ hlt (by omega) (by omega) hdrop
        | inr hspan1 =>
          exfalso
          obtain ⟨hlt, hgt, hdrop, htake⟩ := hspan1
          have hk1 : 0 < pre.length - i := by omega
          have hk2 : pre.length - i < pat.length := by omega
          have hhd := congrArg List.head? htake
          rw [head?_take (by omega), head?_append_of_ne_nil hr, List.head?_drop] at hhd
          apply hhead (pre.length - i) hk2 hk1
          rw [List.get?_eq_getElem?]
          exact hhd.symm

theorem replace_commented_preserve (pat2 rep2 q : List Char)
    (hq : q ≠ []) (hp2 : pat2 ≠ []) (hr2 : rep2 ≠ []) (hp23 : 3 ≤ pat2.length)
    (hhead : ∀ k, k < q.length → 0 < k → q.get? k ≠ rep2.head?)
    (hinside : ∀ j, j < rep2.length → ¬ OccursAt q j rep2)
    (hspan : ∀ j, j < rep2.length → 0 < rep2.length - j → rep2.length - j < q.length →
      rep2.drop j ≠ q.take (rep2.length - j))
    (htail : ∀ k, k < pat2.length → pat2.length ≤ k + 3 → pat2.get? k ≠ some '/') :
    ∀ (n : Nat) (s : List Char), s.length ≤ n → Commented q s →
      Commented q (replaceAll pat2 rep2 s) := by
  intro n
  induction n with
  | zero =>
    intro s hs _
    rw [List.length_eq_zero.1 (Nat.le_zero.1 hs), replaceAll_nil]
    intro i hi
    exact absurd hi (no_occursAt_nil hq i)
  | succ n ih =>
    intro s hs hc
    cases replaceAll_seg pat2 rep2 hp2 (n + 1) s hs with
    | inl hl =>
      rw [hl.1]
      exact hc
    | inr hr' =>
      obtain ⟨pre, mid, hsplit, hre, hmin⟩ := hr'
      have hmidlen : mid.length ≤ n := by
        have := congrArg List.length hsplit
        simp only [List.length_append] at this
        omega
      have hcmid : Commented q mid := by
        intro a ha
        have hin_s : OccursAt q (pre.length + pat2.length + a) s := by
          rw [hsplit]
          have := occursAt_append_right (t := pre ++ pat2) (z := mid) ha
          rwa [List.length_append] at this
        obtain ⟨h3, hmark⟩ := hc _ hin_s
        have ha3 : 3 ≤ a := by
          by_contra hlt3
          push_neg at hlt3
          have hget := occursAt_get (by decide : commentMark ≠ ([] : List Char)) hmark
          have hsg : s.get? (pre.length + (pat2.length + a - 3))
              = pat2.get? (pat2.length + a - 3) := by
            rw [hsplit, List.append_assoc, List.get?_append_right (by omega),
              List.get?_append (by omega)]
            congr 1
            omega
          apply htail (pat2.length + a - 3) (by omega) (by omega)
          rw [← hsg,
            show pre.length + (pat2.length + a - 3) = pre.length + pat2.length + a - 3
              by omega,
            hget]
          rfl
        refine ⟨ha3, ?_⟩
        have hmark' : OccursAt commentMark (pre.length + pat2.length + (a - 3)) s := by
          rw [show pre.length + pat2.length + (a - 3)
            = pre.length + pat2.length + a - 3 by omega]
          exact hmark
        rw [hsplit] at hmark'
        have := occursAt_right_of_ge (t := pre ++ pat2) (z := mid) hmark'
          (by rw [List.length_append]; omega)
        rwa [List.length_append,
          show pre.length + pat2.length + (a - 3) - (pre.length + pat2.length)
            = a - 3 by omega] at this
      rw [hre]
      intro i hi
      rw [List.append_assoc] at hi ⊢
      cases occursAt_split hq hi with
      | inl hcase =>
        have hocc_s : OccursAt q i s := by
          rw [hsplit, List.append_assoc]
          exact occursAt_append_left hq hcase.2 _
        obtain ⟨h3, hmark⟩ := hc _ hocc_s
        refine ⟨h3, ?_⟩
        have hmb : (i - 3) + commentMark.length ≤ pre.length := by
          have h1 := hcase.1
          have h2 := List.length_pos.2 hq
          simp only [commentMark, List.length_cons, List.length_nil]
          omega
        have hmark_pre : OccursAt commentMark (i - 3) pre := by
          rw [hsplit, List.append_assoc] at hmark
          exact occursAt_within hmark hmb
        exact occursAt_append_left (by decide) hmark_pre _
      | inr hcase =>
        cases hcase with
        | inl hge =>
          obtain ⟨hge1, hocc2⟩ := hge
          cases occursAt_split hq hocc2 with
          | inl hin =>
            exfalso
            have hjlt : i - pre.length < rep2.length := by
              have := List.length_pos.2 hq
              have := hin.1
              omega
            exact hinside _ hjlt hin.2
          | inr hin2 =>
            cases hin2 with
            | inl hmidc =>
              obtain ⟨hge2, hocc3⟩ := hmidc
              obtain ⟨h3, hmark⟩ := ih mid hmidlen hcmid _ hocc3
              refine ⟨by omega, ?_⟩
              have hm1 := occursAt_append_right (t := rep2) hmark
              have hm2 := occursAt_append_right (t := pre) hm1
              rw [show pre.length + (rep2.length + (i - pre.length - rep2.length - 3))
                = i - 3 by omega] at hm2
              exact hm2
            | inr hspan2 =>
              exfalso
              obtain ⟨hlt, hgt, hdrop, _⟩ := hspan2
              exact hspan _ hlt (by omega) (by omega) hdrop
        | inr hspan1 =>
          exfalso
          obtain ⟨hlt, hgt, hdrop, htake⟩ := hspan1
          have hhd := congrArg List.head? htake
          rw [head?_take (by omega), head?_append_of_ne_nil hr2, List.head?_drop] at hhd
          apply hhead (pre.length - i) (by omega) (by omega)
          rw [List.get?_eq_getElem?]
          exact hhd.symm

theorem replace_none_intro (pat rep : List Char) (hp : pat ≠ []) (hr : rep ≠ [])
    (hhead : ∀ k, k < pat.length → 0 < k → pat.get? k ≠ rep.head?)
    (hinside : ∀ j, j < rep.length → ¬ OccursAt pat j rep)
    (hspan : ∀ j, j < rep.length → 0 < rep.length - j → rep.length - j < pat.length →
      rep.drop j ≠ pat.take (rep.length - j)) :
    ∀ (n : Nat) (s : List Char), s.length ≤ n →
      ∀ i, ¬ OccursAt pat i (replaceAll pat rep s) := by
  intro n
  induction n with
  | zero =>
    intro s hs i
    rw [List.length_eq_zero.1 (Nat.le_zero.1 hs), replaceAll_nil]
    exact no_occursAt_nil hp i
  | succ n ih =>
    intro s hs i
    cases replaceAll_seg pat rep hp (n + 1) s hs with
    | inl hl =>
      rw [hl.1]
      exact hl.2 i
    | inr hr' =>
      obtain ⟨pre, mid, hsplit, hre, hmin⟩ := hr'
      have hmidlen : mid.length ≤ n := by
        have := congrArg List.length hsplit
        simp only [List.length_append] at this
        have := List.length_pos.2 hp
        omega
      rw [hre]
      intro hi
      rw [List.append_assoc] at hi
      cases occursAt_split hp hi with
      | inl hcase =>
        apply hmin i (by have := List.length_pos.2 hp; have := hcase.1; omega)
        rw [hsplit, List.append_assoc]
        exact occursAt_append_left hp hcase.2 _
      | inr hcase =>
        cases hcase with
        | inl hge =>
          obtain ⟨hge1, hocc2⟩ := hge
          cases occursAt_split hp hocc2 with
          | inl hin =>
            have hjlt : i - pre.length < rep.length := by
              have := List.length_pos.2 hp
              have := hin.1
              omega
            exact hinside _ hjlt hin.2
          | inr hin2 =>
            cases hin2 with
            | inl hmidc =>
              exact ih mid hmidlen _ hmidc.2
            | inr hspan2 =>
              obtain ⟨hlt, hgt, hdrop, _⟩ := hspan2
              exact hspan _ hlt (by omega) (by omega) hdrop
        | inr hspan1 =>
          obtain ⟨hlt, hgt, hdrop, htake⟩ := hspan1
          have hhd := congrArg List.head? htake
          rw [head?_take (by omega), head?_append_of_ne_nil hr, List.head?_drop] at hhd
          apply hhead (pre.length - i) (by omega) (by omega)
          rw [List.get?_eq_getElem?]
          exact hhd.symm

theorem replace_none_preserve (pat2 rep2 q : List Char)
    (hq : q ≠ []) (hp2 : pat2 ≠ []) (hr2 : rep2 ≠ [])
    (hhead : ∀ k, k < q.length → 0 < k → q.get? k ≠ rep2.head?)
    (hinside : ∀ j, j < rep2.length → ¬ OccursAt q j rep2)
    (hspan : ∀ j, j < rep2.length → 0 < rep2.length - j → rep2.length - j < q.length →
      rep2.drop j ≠ q.take (rep2.length - j)) :
    ∀ (n : Nat) (s : List Char), s.length ≤ n → (∀ i, ¬ OccursAt q i s) →
      ∀ i, ¬ OccursAt q i (replaceAll pat2 rep2 s) := by
  intro n
  induction n with
  | zero =>
    intro s hs _ i
    rw [List.length_eq_zero.1 (Nat.le_zero.1 hs), replaceAll_nil]
    exact no_occursAt_nil hq i
  | succ n ih =>
    intro s hs hnone i
    cases replaceAll_seg pat2 rep2 hp2 (n + 1) s hs with
    | inl hl =>
      rw [hl.1]
      exact hnone i
    | inr hr' =>
      obtain ⟨pre, mid, hsplit, hre, hmin⟩ := hr'
      have hmidlen : mid.length ≤ n := by
        have := congrArg List.length hsplit
        simp only [List.length_append] at this
        have := List.length_pos.2 hp2
        omega
      have hnmid : ∀ a, ¬ OccursAt q a mid := by
        intro a ha
        apply hnone (pre.length + pat2.length + a)
        rw [hsplit]
        have := occursAt_append_right (t := pre ++ pat2) (z := mid) ha
        rwa [List.length_append] at this
      rw [hre]
      intro hi
      rw [List.append_assoc] at hi
      cases occursAt_split hq hi with
      | inl hcase =>
        apply hnone i
        rw [hsplit, List.append_assoc]
        exact occursAt_append_left hq hcase.2 _
      | inr hcase =>
        cases hcase with
        | inl hge =>
          obtain ⟨hge1, hocc2⟩ := hge
          cases occursAt_split hq hocc2 with
          | inl hin =>
            have hjlt : i - pre.length < rep2.length := by
              have := List.length_pos.2 hq
              have := hin.1
              omega
            exact hinside _ hjlt hin.2
          | inr hin2 =>
            cases hin2 with
            | inl hmidc =>
              exact ih mid hmidlen hnmid _ hmidc.2
            | inr hspan2 =>
              obtain ⟨hlt, hgt, hdrop, _⟩ := hspan2
              exact hspan _ hlt (by omega) (by omega) hdrop
        | inr hspan1 =>
          obtain ⟨hlt, hgt, hdrop, htake⟩ := hspan1
          have hhd := congrArg List.head? htake
          rw [head?_take (by omega), head?_append_of_ne_nil hr2, List.head?_drop] at hhd
          apply hhead (pre.length - i) (by omega) (by omega)
          rw [List.get?_eq_getElem?]
          exact hhd.symm

theorem replace_exists_intro (pat rep q' : List Char) (hp : pat ≠ [])
    (hq' : q' ≠ []) {o : Nat} (ho : OccursAt q' o rep)
    {s : List Char} {i : Nat} (hocc : OccursAt pat i s) :
    ∃ i', OccursAt q' i' (replaceAll pat rep s) := by
  cases replaceAll_seg pat rep hp s.length s le_rfl with
  | inl hl => exact absurd hocc (hl.2 i)
  | inr hr' =>
    obtain ⟨pre, mid, hsplit, hre, hmin⟩ := hr'
    refine ⟨pre.length + o, ?_⟩
    rw [hre, List.append_assoc]
    exact occursAt_append_right (occursAt_append_left hq' ho _)

theorem replace_exists_preserve (pat2 rep2 q : List Char)
    (hq : q ≠ []) (hp2 : pat2 ≠ [])
    (hhead : ∀ k, k < q.length → 0 < k → q.get? k ≠ pat2.head?)
    (hinside : ∀ j, j < pat2.length → ¬ OccursAt q j pat2)
    (hspan : ∀ j, j < pat2.length → 0 < pat2.length - j → pat2.length - j < q.length →
      pat2.drop j ≠ q.take (pat2.length - j)) :
    ∀ (n : Nat) (s : List Char), s.length ≤ n →
      ∀ i, OccursAt q i s → ∃ i', OccursAt q i' (replaceAll pat2 rep2 s) := by
  intro n
  induction n with
  | zero =>
    intro s hs i hi
    rw [List.length_eq_zero.1 (Nat.le_zero.1 hs)] at hi
    exact absurd hi (no_occursAt_nil hq i)
  | succ n ih =>
    intro s hs i hi
    cases replaceAll_seg pat2 rep2 hp2 (n + 1) s hs with
    | inl hl =>
      rw [hl.1]
      exact ⟨i, hi⟩
    | inr hr' =>
      obtain ⟨pre, mid, hsplit, hre, hmin⟩ := hr'
      have hmidlen : mid.length ≤ n := by
        have := congrArg List.length hsplit
        simp only [List.length_append] at this
        have := List.length_pos.2 hp2
        omega
      rw [hsplit, List.append_assoc] at hi
      cases occursAt_split hq hi with
      | inl hcase =>
        refine ⟨i, ?_⟩
        rw [hre, List.append_assoc]
        exact occursAt_append_left hq hcase.2 _
      | inr hcase =>
        cases hcase with
        | inl hge =>
          obtain ⟨hge1, hocc2⟩ := hge
          cases occursAt_split hq hocc2 with
          | inl hin =>
            exfalso
            have hjlt : i - pre.length < pat2.length := by
              have := List.length_pos.2 hq
              have := hin.1
              omega
            exact hinside _ hjlt hin.2
          | inr hin2 =>
            cases hin2 with
            | inl hmidc =>
              obtain ⟨i', hi'⟩ := ih mid hmidlen _ hmidc.2
              refine ⟨pre.length + rep2.length + i', ?_⟩
              rw [hre, List.append_assoc]
              have hm1 := occursAt_append_right (t := rep2) hi'
              have hm2 := occursAt_append_right (t := pre) hm1
              rwa [← Nat.add_assoc] at hm2
            | inr hspan2 =>
              exfalso
              obtain ⟨hlt, hgt, hdrop, _⟩ := hspan2
              exact hspan _ hlt (by omega) (by omega) hdrop
        | inr hspan1 =>
          exfalso
          obtain ⟨hlt, hgt, hdrop, htake⟩ := hspan1
          have hhd := congrArg List.head? htake
          rw [head?_take (by omega), head?_append_of_ne_nil hp2, List.head?_drop] at hhd
          apply hhead (pre.length - i) (by omega) (by omega)
          rw [List.get?_eq_getElem?]
          exact hhd.symm

theorem commented_append (q t z : List Char) (hq : q ≠ [])
    (hheadz : ∀ k, k < q.length → 0 < k → q.get? k ≠ z.head?)
    (hinsidez : ∀ j, j < z.length → ¬ OccursAt q j z)
    (hc : Commented q t) : Commented q (t ++ z) := by
  intro i hi
  cases occursAt_split hq hi with
  | inl hcase =>
    obtain ⟨h3, hmark⟩ := hc _ hcase.2
    refine ⟨h3, ?_⟩
    apply occursAt_append_left (by decide) ?_ z
    have hmb : (i - 3) + commentMark.length ≤ t.length := by
      have := hcase.1
      have := List.length_pos.2 hq
      simp only [commentMark, List.length_cons, List.length_nil]
      omega
    exact hmark
  | inr hcase =>
    cases hcase with
    | inl hge =>
      exfalso
      have hjlt : i - t.length < z.length := by
        have := List.length_pos.2 hq
        have := occursAt_length hq hge.2
        omega
      exact hinsidez _ hjlt hge.2
    | inr hspan1 =>
      exfalso
      obtain ⟨hlt, hgt, hdrop, htake⟩ := hspan1
      cases hz : z with
      | nil =>
        subst hz
        simp at htake
        omega
      | cons zc zrest =>
        have hhd := congrArg List.head? htake
        rw [head?_take (by omega), List.head?_drop] at hhd
        apply hheadz (t.length - i) (by omega) (by omega)
        rw [List.get?_eq_getElem?, hz]
        rw [hz] at hhd
        exact hhd.symm

theorem none_append (q t z : List Char) (hq : q ≠ [])
    (hheadz : ∀ k, k < q.length → 0 < k → q.get? k ≠ z.head?)
    (hinsidez : ∀ j, j < z.length → ¬ OccursAt q j z)
    (hn : ∀ i, ¬ OccursAt q i t) : ∀ i, ¬ OccursAt q i (t ++ z) := by
  intro i hi
  cases occursAt_split hq hi with
  | inl hcase => exact hn i hcase.2
  | inr hcase =>
    cases hcase with
    | inl hge =>
      have hjlt : i - t.length < z.length := by
        have := List.length_pos.2 hq
        have := occursAt_length hq hge.2
        omega
      exact hinsidez _ hjlt hge.2
    | inr hspan1 =>
      obtain ⟨hlt, hgt, hdrop, htake⟩ := hspan1
      cases hz : z with
      | nil =>
        subst hz
        simp at htake
        omega
      | cons zc zrest =>
        have hhd := congrArg List.head? htake
        rw [head?_take (by omega), List.head?_drop] at hhd
        apply hheadz (t.length - i) (by omega) (by omega)
        rw [List.get?_eq_getElem?, hz]
        rw [hz] at hhd
        exact hhd.symm

theorem shaderLoad_gl_sources (cacheAvailable : Bool)
    (provider : List Char → Option (List (List Char))) (fuel : Nat)
    (stream : SrcStream) (s : ShaderState) (code : List Char)
    (deps : List (List Char))
    (h : processSource cacheAvailable provider s.name fuel stream = .ok code deps) :
    (shaderLoad true true cacheAvailable provider fuel stream s).2.vsSourceCode
        = replaceAll "void PS(".toList "/* void PS(".toList
            (replaceAll "void VS(".toList "void main(".toList code)
          ++ "*/\n".toList ∧
      (shaderLoad true true cacheAvailable provider fuel stream s).2.psSourceCode
        = replaceAll "void PS(".toList "*/\nvoid main(".toList
            (replaceAll "void VS(".toList "/* void VS(".toList
              (replaceAll "attribute ".toList "// attribute ".toList code)) ∧
      (shaderLoad true true cacheAvailable provider fuel stream s).1 = true := by
  unfold shaderLoad
  rw [h]
  simp

/-- C6: stage isolation (dialect A, OpenGL).  After a successful load of
combined source containing both `void VS(` and `void PS(` markers, the vertex
source contains no active `void PS(` declaration (every occurrence is directly
preceded by the comment opener `/* `), contains no `void VS(` occurrence at
all (the vertex entry point has been renamed), and contains `void main(`; the
pixel source contains no active `void VS(` declaration and contains
`void main(` (the renamed pixel entry point). -/
theorem shaderLoad_stage_isolation (cacheAvailable : Bool)
    (provider : List Char → Option (List (List Char))) (fuel : Nat)
    (stream : SrcStream) (s : ShaderState) (code : List Char)
    (deps : List (List Char))
    (hps : processSource cacheAvailable provider s.name fuel stream = .ok code deps)
    (hvs : ∃ i, OccursAt "void VS(".toList i code)
    (hpsm : ∃ j, OccursAt "void PS(".toList j code) :
    Commented "void PS(".toList
        (shaderLoad true true cacheAvailable provider fuel stream s).2.vsSourceCode ∧
      (∀ i, ¬ OccursAt "void VS(".toList i
        (shaderLoad true true cacheAvailable provider fuel stream s).2.vsSourceCode) ∧
      (∃ i, OccursAt "void main(".toList i
        (shaderLoad true true cacheAvailable provider fuel stream s).2.vsSourceCode) ∧
      Commented "void VS(".toList
        (shaderLoad true true cacheAvailable provider fuel stream s).2.psSourceCode ∧
      (∃ i, OccursAt "void main(".toList i
        (shaderLoad true true cacheAvailable provider fuel stream s).2.psSourceCode) := by
  obtain ⟨hvseq, hpseq, _⟩ :=
    shaderLoad_gl_sources cacheAvailable provider fuel stream s code deps hps
  rw [hvseq, hpseq]
  obtain ⟨iv, hiv⟩ := hvs
  obtain ⟨jp, hjp⟩ := hpsm
  refine ⟨?_, ?_, ?_, ?_, ?_⟩
  · -- every `void PS(` in the vertex source is commented out
    apply commented_append _ _ _ (by decide) (by decide) (by decide)
    exact replace_commented_intro "void PS(".toList "/* void PS(".toList
      (by decide) (by decide) (by decide) (by decide) (by decide) _ _ le_rfl
  · -- no `void VS(` remains in the vertex source
    apply none_append _ _ _ (by decide) (by decide) (by decide)
    apply replace_none_preserve "void PS(".toList "/* void PS(".toList
      "void VS(".toList (by decide) (by decide) (by decide) (by decide) (by decide)
      (by decide) _ _ le_rfl
    exact replace_none_intro "void VS(".toList "void main(".toList
      (by decide) (by decide) (by decide) (by decide) (by decide) _ _ le_rfl
  · -- `void main(` occurs in the vertex source
    have h1 : ∃ i', OccursAt "void main(".toList i'
        (replaceAll "void VS(".toList "void main(".toList code) :=
      replace_exists_intro "void VS(".toList "void main(".toList
        "void main(".toList (by decide) (by decide)
        (o := 0) (by decide) hiv
    obtain ⟨i1, hi1⟩ := h1
    have h2 := replace_exists_preserve "void PS(".toList "/* void PS(".toList
      "void main(".toList (by decide) (by decide) (by decide) (by decide)
      (by decide) _ _ le_rfl _ hi1
    obtain ⟨i2, hi2⟩ := h2
    exact ⟨i2, occursAt_append_left (by decide) hi2 _⟩
  · -- every `void VS(` in the pixel source is commented out
    apply replace_commented_preserve "void PS(".toList "*/\nvoid main(".toList
      "void VS(".toList (by decide) (by decide) (by decide) (by decide) (by decide)
      (by decide) (by decide) (by decide) _ _ le_rfl
    exact replace_commented_intro "void VS(".toList "/* void VS(".toList
      (by decide) (by decide) (by decide) (by decide) (by decide) _ _ le_rfl
  · -- `void main(` occurs in the pixel source
    have h1 := replace_exists_preserve "attribute ".toList "// attribute ".toList
      "void PS(".toList (by decide) (by decide) (by decide) (by decide)
      (by decide) _ _ le_rfl _ hjp
    obtain ⟨j1, hj1⟩ := h1
    have h2 := replace_exists_preserve "void VS(".toList "/* void VS(".toList
      "void PS(".toList (by decide) (by decide) (by decide) (by decide)
      (by decide) _ _ le_rfl _ hj1
    obtain ⟨j2, hj2⟩ := h2
    exact replace_exists_intro "void PS(".toList "*/\nvoid main(".toList
      "void main(".toList (by decide) (by decide) (o := 3) (by decide) hj2

theorem shaderLoad_stage_isolation_witness :
    Commented "void PS(".toList
        (shaderLoad true true true (fun _ => none) 1 testLoadSrc
          testState).2.vsSourceCode ∧
      (∀ i, ¬ OccursAt "void VS(".toList i
        (shaderLoad true true true (fun _ => none) 1 testLoadSrc
          testState).2.vsSourceCode) ∧
      (∃ i, OccursAt "void main(".toList i
        (shaderLoad true true true (fun _ => none) 1 testLoadSrc
          testState).2.vsSourceCode) ∧
      Commented "void VS(".toList
        (shaderLoad true true true (fun _ => none) 1 testLoadSrc
          testState).2.psSourceCode ∧
      (∃ i, OccursAt "void main(".toList i
        (shaderLoad true true true (fun _ => none) 1 testLoadSrc
          testState).2.psSourceCode) :=
  shaderLoad_stage_isolation true (fun _ => none) 1 testLoadSrc testState
    "void VS()\nvoid PS()\n\n".toList [] (by decide)
    ⟨0, by decide⟩ ⟨10, by decide⟩

end Urho3D
